import Mathlib

/-!
# Verification of the SecBot indicator-synchronization subsystem

Shallow embedding of the rule-file management code of the `news_crawler`
repository (`src/secbot/defense/suricata.py`, `suricata_url.py`,
`suricata_hash.py`, the defense-dispatch part of `src/secbot/main.py`, and
`src/secbot/parsers/ioc.py`), together with theorems settling the frozen
claims about that code.

Modelling conventions:
* Python strings are `List Char`; a rule file is `Option (List (List Char))`
  (`none` = the file does not exist, `some lines` = its lines, each written
  with a trailing newline).  Equality of the line lists is equality of the
  file's byte content.
* External processes (the Suricata binary, `suricatasc`, `kill`) are modelled
  by an environment record of their outcomes; the reload helpers return the
  list of external actions they attempt, in order.
* The Python standard-library helpers `urllib.parse` (host/URI extraction for
  the URL rule template) and `re` (regex matching in `ioc.extract`) are
  external collaborators; they enter the model as explicit function
  parameters, which every theorem quantifies over.
* `ipaddress.ip_address` is modelled on its IPv4 fragment (dotted-quad,
  octets 0–255, leading zeros rejected, canonical decimal output).  The
  repository's own IOC extractor (`ioc.py`) produces IPv4 indicators only.
-/

namespace SecBot

/-! ## Basic string utilities (Python semantics on `List Char`) -/

/-- Python `str.strip()` (whitespace at both ends removed). -/
def pyStrip (s : List Char) : List Char :=
  ((s.dropWhile Char.isWhitespace).reverse.dropWhile Char.isWhitespace).reverse

/-- Python `s.replace("[.]", ".")`: left-to-right, non-overlapping. -/
def replaceBrDot : List Char → List Char
  | '[' :: '.' :: ']' :: rest => '.' :: replaceBrDot rest
  | c :: rest => c :: replaceBrDot rest
  | [] => []

/-- Python `s.replace("[:]", ":")`: left-to-right, non-overlapping. -/
def replaceBrColon : List Char → List Char
  | '[' :: ':' :: ']' :: rest => ':' :: replaceBrColon rest
  | c :: rest => c :: replaceBrColon rest
  | [] => []

/-- Helper for `str.split()` (split on runs of spaces, no empty fields).
The rule lines handled here use only the space character as whitespace. -/
def splitWsAux : List Char → List Char → List (List Char)
  | [], acc => bif acc.isEmpty then [] else [acc.reverse]
  | c :: cs, acc =>
    bif c == ' ' then
      bif acc.isEmpty then splitWsAux cs [] else acc.reverse :: splitWsAux cs []
    else splitWsAux cs (c :: acc)

/-- Python `str.split()` restricted to space-separated fields. -/
def splitWs (s : List Char) : List (List Char) := splitWsAux s []

/-- Helper for `str.split(".")`. -/
def splitDotAux : List Char → List Char → List (List Char)
  | [], acc => [acc.reverse]
  | c :: cs, acc =>
    bif c == '.' then acc.reverse :: splitDotAux cs [] else splitDotAux cs (c :: acc)

/-- Python `str.split(".")` (keeps empty fields). -/
def splitDot (s : List Char) : List (List Char) := splitDotAux s []

/-- Split a string at the first occurrence of `pat` (nonempty), returning the
pieces before and after it; `none` when `pat` does not occur.  This is the
semantics of Python `s.split(pat, 1)` having two elements. -/
def splitFirst (pat : List Char) : List Char → Option (List Char × List Char)
  | [] => none
  | c :: cs =>
    bif pat.isPrefixOf (c :: cs) then some ([], (c :: cs).drop pat.length)
    else
      match splitFirst pat cs with
      | some (a, b) => some (c :: a, b)
      | none => none

/-- Python `pat in s` (substring containment), for nonempty `pat`. -/
def containsSub (pat s : List Char) : Bool := (splitFirst pat s).isSome

/-- Decimal digits of `n`, most significant first (`str(n)` in Python),
with structural fuel so that the kernel can evaluate it. -/
def natToDigitsCore : Nat → Nat → List Char
  | 0, _ => []
  | fuel + 1, n =>
    if n < 10 then [Char.ofNat (48 + n)]
    else natToDigitsCore fuel (n / 10) ++ [Char.ofNat (48 + n % 10)]

/-- Decimal representation of `n` as characters. -/
def natToDigits (n : Nat) : List Char := natToDigitsCore (n + 1) n

/-- Numeric value of a string of decimal digits. -/
def digitsToNat (l : List Char) : Nat :=
  l.foldl (fun acc c => acc * 10 + (c.toNat - 48)) 0

/-- Lexicographic (code-point) strict order on strings, as Python `<`. -/
def lexLt : List Char → List Char → Bool
  | [], [] => false
  | [], _ :: _ => true
  | _ :: _, [] => false
  | a :: as, b :: bs =>
    bif a.toNat < b.toNat then true
    else bif b.toNat < a.toNat then false
    else lexLt as bs

/-- Insert into a strictly sorted list, skipping an already-present value. -/
def insSorted (x : List Char) : List (List Char) → List (List Char)
  | [] => [x]
  | y :: ys =>
    bif lexLt x y then x :: y :: ys
    else bif x == y then y :: ys
    else y :: insSorted x ys

/-- Python `sorted(set(l))`: the ascending duplicate-free list of members. -/
def sortedSet (l : List (List Char)) : List (List Char) := l.foldr insSorted []

/-- Append `x` unless already present (list model of Python set/list dedup). -/
def dedupAppend (acc : List (List Char)) (x : List Char) : List (List Char) :=
  if x ∈ acc then acc else acc ++ [x]

/-! ## IP normalization (`suricata._normalize_ip`)

`_normalize_ip` strips whitespace, replaces the `[.]` obfuscation pattern
(only that one — the source has no `[:]` replacement), and then calls
`ipaddress.ip_address`, returning `str(ip)` on success and `None` on
`ValueError`.  The address parser is modelled on its IPv4 fragment:
dotted-quad decimal, each octet at most 255, at most three digits, leading
zeros rejected, canonical output re-rendered from the numeric octets. -/

/-- One dotted-quad field, as `ipaddress`'s octet parser accepts it. -/
def parseOctet (s : List Char) : Option Nat :=
  if s.isEmpty then none
  else if ¬ s.all Char.isDigit then none
  else if 3 < s.length then none
  else if 1 < s.length ∧ s.head? = some '0' then none
  else if digitsToNat s ≤ 255 then some (digitsToNat s) else none

/-- IPv4 parse of a cleaned string: exactly four valid dotted fields. -/
def parseIPv4 (s : List Char) : Option (Nat × Nat × Nat × Nat) :=
  match splitDot s with
  | [a, b, c, d] =>
    match parseOctet a, parseOctet b, parseOctet c, parseOctet d with
    | some x, some y, some z, some w => some (x, y, z, w)
    | _, _, _, _ => none
  | _ => none

/-- Canonical dotted-quad rendering, as `str(IPv4Address(...))`. -/
def renderIPv4 (a b c d : Nat) : List Char :=
  natToDigits a ++ '.' :: natToDigits b ++ '.' :: natToDigits c ++ '.' :: natToDigits d

/-- `suricata._normalize_ip`: empty check, strip, `[.]`→`.`, parse, canonical
output.  (The source performs no `[:]` replacement.) -/
def normIp (raw : List Char) : Option (List Char) :=
  if raw.isEmpty then none
  else
    match parseIPv4 (replaceBrDot (pyStrip raw)) with
    | some (a, b, c, d) => some (renderIPv4 a b c d)
    | none => none

/-- The canonical IPv4 strings: exactly the possible outputs of `normIp`. -/
def IpCanon (v : List Char) : Prop :=
  ∃ a b c d, a ≤ 255 ∧ b ≤ 255 ∧ c ≤ 255 ∧ d ≤ 255 ∧ v = renderIPv4 a b c d

/-! ## The IP rule store (`suricata._write_rules_file` and `suricata.block`) -/

/-- `BASE_SID` in `suricata.py`. -/
def BASE_SID : Nat := 7000000

/-- How a merge touched the rule file on disk.  The source only ever opens the
target path directly (`"w"` when absent, `"a"` otherwise); `tempThenRename`
is the write-to-temporary-then-atomic-rename protocol the specification
prescribes, which is never produced by the source. -/
inductive WriteMethod
  | createWrite
  | appendWrite
  | tempThenRename
deriving DecidableEq, Repr

/-- One rendered IP block rule, as written by `_write_rules_file`:
`drop ip <ip> any <> any any (msg:"SecBot malicious IP <ip>"; sid:<sid>; rev:1;)`. -/
def renderIpLine (ip : List Char) (sid : Nat) : List Char :=
  "drop ip ".data ++ ip ++ " any <> any any (msg:\"SecBot malicious IP ".data ++
    ip ++ "\"; sid:".data ++ natToDigits sid ++ "; rev:1;)".data

/-- The rule lines for `ips` numbered from `start` (the source's
`enumerate(ips_to_write, start=start_index)` with `sid = BASE_SID + idx`). -/
def renderIpLines (start : Nat) : List (List Char) → List (List Char)
  | [] => []
  | ip :: rest => renderIpLine ip (BASE_SID + start) :: renderIpLines (start + 1) rest

/-- The existing-rule sniffing of one line in `_write_rules_file` step 2:
whitespace-split the line, require `drop ip`, and take the third field when
the bidirectional `<>` token is present (or the `->` variants).  The
`parts[arrow + 1]` access is modelled with a default, which is reached only
on hand-crafted files the store never writes. -/
def ipLineExtract (line : List Char) : Option (List Char) :=
  let parts := splitWs line
  if parts.length < 3 then none
  else if parts.getD 0 [] ≠ "drop".data then none
  else if parts.getD 1 [] ≠ "ip".data then none
  else if "<>".data ∈ parts then some (parts.getD 2 [])
  else if "->".data ∈ parts then
    let arrow := parts.indexOf "->".data
    if arrow = 3 then some (parts.getD 4 []) else some (parts.getD 2 [])
  else none

/-- The accumulation step shared by both loops of `_write_rules_file`:
`clean = _normalize_ip(x); if clean and clean not in acc: acc.append(clean)`. -/
def normAccum (acc : List (List Char)) (raw : List Char) : List (List Char) :=
  match normIp raw with
  | none => acc
  | some clean => if clean.isEmpty then acc else dedupAppend acc clean

/-- Per-line step of the existing-rule loop: sniff the token, then normalize
and dedup-append it. -/
def ipExistStep (acc : List (List Char)) (line : List Char) : List (List Char) :=
  match ipLineExtract line with
  | none => acc
  | some tok => normAccum acc tok

/-- Parsing the previously written IPs out of the file's lines, in order,
deduplicated (`existing_ips` in `_write_rules_file`). -/
def ipExisting (lines : List (List Char)) : List (List Char) :=
  lines.foldl ipExistStep []

/-- Normalization and in-batch deduplication of the raw input IPs
(`new_ips` in `_write_rules_file`). -/
def dedupNormIps (raws : List (List Char)) : List (List Char) :=
  raws.foldl normAccum []

/-- Result of one `_write_rules_file` call: the file state afterwards, the
lines written by this call, how the file was opened (if at all), and the
function's integer return value. -/
structure IpMergeOut where
  file : Option (List (List Char))
  written : List (List Char)
  wrote : Option WriteMethod
  count : Nat
deriving DecidableEq, Repr

/-- `suricata._write_rules_file`, as a function of the raw batch and the
current file state. -/
def writeRulesFile (raws : List (List Char)) (file : Option (List (List Char))) :
    IpMergeOut :=
  let newIps := dedupNormIps raws
  let existing := match file with | none => [] | some ls => ipExisting ls
  let finalIps := existing ++ newIps.filter (fun ip => !(existing.contains ip))
  match file with
  | none =>
    let toWrite := finalIps
    if toWrite.isEmpty then ⟨none, [], none, 0⟩
    else
      ⟨some (renderIpLines 1 toWrite), renderIpLines 1 toWrite,
        some .createWrite, toWrite.length⟩
  | some ls =>
    let toWrite := finalIps.filter (fun ip => !(existing.contains ip))
    if toWrite.isEmpty then ⟨some ls, [], none, existing.length⟩
    else
      ⟨some (ls ++ renderIpLines (existing.length + 1) toWrite),
        renderIpLines (existing.length + 1) toWrite,
        some .appendWrite, existing.length + toWrite.length⟩

/-- `suricata.block`: run the merge, then reload Suricata iff the returned
count is nonzero.  The second component records whether `_reload_suricata`
was invoked. -/
def blockIp (raws : List (List Char)) (file : Option (List (List Char))) :
    IpMergeOut × Bool :=
  let m := writeRulesFile raws file
  (m, m.count ≠ 0)

/-- The store-written IP rule files: the lines rendered, in order, for a
duplicate-free list of canonical values with positional SIDs starting at
`BASE_SID + 1`.  Every file `_write_rules_file` creates from scratch and
every file obtained from one by further merges has this shape. -/
def ipFileOf (vs : List (List Char)) : List (List Char) := renderIpLines 1 vs

/-- Well-formed persisted IP store state: absent, or a store-written file. -/
def IpStore (file : Option (List (List Char))) : Prop :=
  file = none ∨
    ∃ vs, file = some (ipFileOf vs) ∧ vs.Nodup ∧ ∀ v ∈ vs, IpCanon v

/-- The positional identifiers a store-written file encodes: the value at
0-based position `i` carries `sid = BASE_SID + 1 + i`, which is exactly how
`_write_rules_file` numbers lines (`start_index = len(existing_ips) + 1`,
`sid = BASE_SID + idx`). -/
def zipSids (start : Nat) : List (List Char) → List (List Char × Nat)
  | [] => []
  | v :: rest => (v, BASE_SID + start) :: zipSids (start + 1) rest

/-- The rule-store state re-derived from the persisted file (simulated
restart): parse the values with the sniffing loop of `_write_rules_file`,
and pair them with the positional identifiers its append logic assigns. -/
def reconstructIp (lines : List (List Char)) : List (List Char × Nat) :=
  zipSids 1 (ipExisting lines)

/-! ## Character and digit lemmas -/

lemma digit_not_space {c : Char} (h : c.isDigit = true) : (c == ' ') = false := by
  have : c ≠ ' ' := by rintro rfl; simp [Char.isDigit] at h
  simp [this]

lemma digit_not_ws {c : Char} (h : c.isDigit = true) : c.isWhitespace = false := by
  simp only [Char.isDigit, Bool.and_eq_true, decide_eq_true_eq] at h
  obtain ⟨h1, _⟩ := h
  have hs : c ≠ ' ' := by rintro rfl; revert h1; decide
  have ht : c ≠ '\t' := by rintro rfl; revert h1; decide
  have hr : c ≠ '\r' := by rintro rfl; revert h1; decide
  have hn : c ≠ '\n' := by rintro rfl; revert h1; decide
  simp [Char.isWhitespace, hs, ht, hr, hn]

lemma digit_ne_lbr {c : Char} (h : c.isDigit = true) : c ≠ '[' := by
  rintro rfl; simp [Char.isDigit] at h

lemma digit_ne_quote {c : Char} (h : c.isDigit = true) : c ≠ '"' := by
  rintro rfl; simp [Char.isDigit] at h

set_option maxRecDepth 8000 in
lemma natToDigits_octet_digit : ∀ n < 256, (natToDigits n).all Char.isDigit = true := by
  decide

set_option maxRecDepth 8000 in
lemma natToDigits_octet_ne_nil : ∀ n < 256, natToDigits n ≠ [] := by decide

set_option maxRecDepth 8000 in
lemma parseOctet_natToDigits : ∀ n < 256, parseOctet (natToDigits n) = some n := by
  decide

lemma octet_digits {m : Nat} (hm : m ≤ 255) :
    ∀ x ∈ natToDigits m, x.isDigit = true := fun x hx =>
  (List.all_eq_true.mp (natToDigits_octet_digit m (Nat.lt_succ_of_le hm))) x hx

/-- Characters of a canonical IPv4 string are digits or dots. -/
lemma ipCanon_chars {v : List Char} (h : IpCanon v) :
    ∀ c ∈ v, c.isDigit = true ∨ c = '.' := by
  obtain ⟨a, b, c', d, ha, hb, hc, hd, rfl⟩ := h
  intro c hc'
  unfold renderIPv4 at hc'
  simp only [List.cons_append, List.append_assoc, List.mem_append, List.mem_cons] at hc'
  rcases hc' with h1 | h1
  · exact Or.inl (octet_digits ha c h1)
  rcases h1 with rfl | h1
  · exact Or.inr rfl
  rcases h1 with h1 | h1
  · exact Or.inl (octet_digits hb c h1)
  rcases h1 with rfl | h1
  · exact Or.inr rfl
  rcases h1 with h1 | h1
  · exact Or.inl (octet_digits hc c h1)
  rcases h1 with rfl | h1
  · exact Or.inr rfl
  · exact Or.inl (octet_digits hd c h1)

lemma ipChar_not_space {c : Char} (h : c.isDigit = true ∨ c = '.') :
    (c == ' ') = false := by
  rcases h with h | rfl
  · exact digit_not_space h
  · decide

lemma ipChar_not_ws {c : Char} (h : c.isDigit = true ∨ c = '.') :
    c.isWhitespace = false := by
  rcases h with h | rfl
  · exact digit_not_ws h
  · decide

lemma ipChar_ne_lbr {c : Char} (h : c.isDigit = true ∨ c = '.') : c ≠ '[' := by
  rcases h with h | rfl
  · exact digit_ne_lbr h
  · decide

lemma ipChar_ne_quote {c : Char} (h : c.isDigit = true ∨ c = '.') : c ≠ '"' := by
  rcases h with h | rfl
  · exact digit_ne_quote h
  · decide

lemma ipCanon_ne_nil {v : List Char} (h : IpCanon v) : v ≠ [] := by
  obtain ⟨a, b, c, d, _, _, _, _, rfl⟩ := h
  simp [renderIPv4]

/-! ## No-op lemmas for strip and replace on clean strings -/

lemma dropWhile_eq_self_of_head (p : Char → Bool) (l : List Char)
    (h : ∀ c ∈ l, p c = false) : l.dropWhile p = l := by
  cases l with
  | nil => rfl
  | cons c cs => simp [List.dropWhile, h c (by simp)]

lemma pyStrip_eq_self {l : List Char} (h : ∀ c ∈ l, c.isWhitespace = false) :
    pyStrip l = l := by
  unfold pyStrip
  rw [dropWhile_eq_self_of_head _ _ h,
    dropWhile_eq_self_of_head _ _ (fun c hc => h c (List.mem_reverse.mp hc)),
    List.reverse_reverse]

lemma replaceBrDot_cons_ne {c : Char} (hc : c ≠ '[') (cs : List Char) :
    replaceBrDot (c :: cs) = c :: replaceBrDot cs := by
  rw [replaceBrDot.eq_def]
  split
  · rename_i rest heq
    exact absurd (List.cons_eq_cons.mp heq).1 hc
  · rename_i c' rest' heq
    obtain ⟨rfl, rfl⟩ := List.cons_eq_cons.mp heq
    rfl
  · rename_i heq
    exact absurd heq (by simp)

lemma replaceBrDot_eq_self {l : List Char} (h : '[' ∉ l) : replaceBrDot l = l := by
  induction l with
  | nil => rfl
  | cons c cs ih =>
    have hc : c ≠ '[' := fun hh => h (hh ▸ List.mem_cons_self _ _)
    rw [replaceBrDot_cons_ne hc, ih (fun hm => h (List.mem_cons_of_mem _ hm))]

/-! ## splitDot on rendered addresses -/

lemma splitDotAux_cons_dot (cs acc) :
    splitDotAux ('.' :: cs) acc = acc.reverse :: splitDotAux cs [] := by
  simp [splitDotAux]

lemma splitDotAux_cons_nondot {c : Char} (hc : (c == '.') = false) (cs acc) :
    splitDotAux (c :: cs) acc = splitDotAux cs (c :: acc) := by
  simp [splitDotAux, hc]

lemma splitDotAux_word (w : List Char) (hw : ∀ c ∈ w, (c == '.') = false) :
    ∀ (acc rest : List Char),
      splitDotAux (w ++ '.' :: rest) acc = (acc.reverse ++ w) :: splitDotAux rest [] := by
  induction w with
  | nil => intro acc rest; simpa using splitDotAux_cons_dot rest acc
  | cons c cs ih =>
    intro acc rest
    rw [List.cons_append, splitDotAux_cons_nondot (hw c (by simp)),
      ih (fun d hd => hw d (by simp [hd]))]
    simp

lemma splitDotAux_last (w : List Char) (hw : ∀ c ∈ w, (c == '.') = false) :
    ∀ acc, splitDotAux w acc = [acc.reverse ++ w] := by
  induction w with
  | nil => intro acc; simp [splitDotAux]
  | cons c cs ih =>
    intro acc
    rw [splitDotAux_cons_nondot (hw c (by simp)), ih (fun d hd => hw d (by simp [hd]))]
    simp

lemma digits_not_dot {m : Nat} (hm : m ≤ 255) :
    ∀ c ∈ natToDigits m, (c == '.') = false := by
  intro c hc
  have := (List.all_eq_true.mp (natToDigits_octet_digit m (Nat.lt_succ_of_le hm))) c hc
  have hne : c ≠ '.' := by rintro rfl; simp [Char.isDigit] at this
  simp [hne]

lemma splitDot_renderIPv4 {a b c d : Nat}
    (ha : a ≤ 255) (hb : b ≤ 255) (hc : c ≤ 255) (hd : d ≤ 255) :
    splitDot (renderIPv4 a b c d) =
      [natToDigits a, natToDigits b, natToDigits c, natToDigits d] := by
  unfold splitDot renderIPv4
  simp only [List.cons_append, List.append_assoc]
  rw [splitDotAux_word _ (digits_not_dot ha), splitDotAux_word _ (digits_not_dot hb),
    splitDotAux_word _ (digits_not_dot hc), splitDotAux_last _ (digits_not_dot hd)]
  simp

/-! ## Canonical round-trip of `_normalize_ip` -/

lemma parseIPv4_renderIPv4 {a b c d : Nat}
    (ha : a ≤ 255) (hb : b ≤ 255) (hc : c ≤ 255) (hd : d ≤ 255) :
    parseIPv4 (renderIPv4 a b c d) = some (a, b, c, d) := by
  simp only [parseIPv4, splitDot_renderIPv4 ha hb hc hd,
    parseOctet_natToDigits a (Nat.lt_succ_of_le ha),
    parseOctet_natToDigits b (Nat.lt_succ_of_le hb),
    parseOctet_natToDigits c (Nat.lt_succ_of_le hc),
    parseOctet_natToDigits d (Nat.lt_succ_of_le hd)]

/-- A canonical value passes `_normalize_ip` unchanged: re-parsing the
store's own output is the identity. -/
lemma normIp_canon {v : List Char} (h : IpCanon v) : normIp v = some v := by
  have hne : v ≠ [] := ipCanon_ne_nil h
  have hchars := ipCanon_chars h
  unfold normIp
  rw [if_neg (by simpa [List.isEmpty_iff] using hne)]
  rw [pyStrip_eq_self (fun c hc => ipChar_not_ws (hchars c hc))]
  rw [replaceBrDot_eq_self (fun hm => ipChar_ne_lbr (hchars '[' hm) rfl)]
  obtain ⟨a, b, c, d, ha, hb, hc, hd, rfl⟩ := h
  rw [parseIPv4_renderIPv4 ha hb hc hd]

lemma parseOctet_le {s : List Char} {n : Nat} (h : parseOctet s = some n) : n ≤ 255 := by
  unfold parseOctet at h
  split at h
  · exact absurd h (by simp)
  · split at h
    · exact absurd h (by simp)
    · split at h
      · exact absurd h (by simp)
      · split at h
        · exact absurd h (by simp)
        · split at h
          · rename_i hle; cases h; exact hle
          · exact absurd h (by simp)

lemma parseIPv4_some_le {s : List Char} {a b c d : Nat}
    (h : parseIPv4 s = some (a, b, c, d)) :
    a ≤ 255 ∧ b ≤ 255 ∧ c ≤ 255 ∧ d ≤ 255 := by
  unfold parseIPv4 at h
  split at h
  · rename_i sa sb sc sd hsplit
    cases hpa : parseOctet sa with
    | none => rw [hpa] at h; simp at h
    | some na =>
      cases hpb : parseOctet sb with
      | none => rw [hpa, hpb] at h; simp at h
      | some nb =>
        cases hpc : parseOctet sc with
        | none => rw [hpa, hpb, hpc] at h; simp at h
        | some nc =>
          cases hpd : parseOctet sd with
          | none => rw [hpa, hpb, hpc, hpd] at h; simp at h
          | some nd =>
            rw [hpa, hpb, hpc, hpd] at h
            simp only [Option.some.injEq, Prod.mk.injEq] at h
            obtain ⟨rfl, rfl, rfl, rfl⟩ := h
            exact ⟨parseOctet_le hpa, parseOctet_le hpb,
              parseOctet_le hpc, parseOctet_le hpd⟩
  · simp at h

/-- Every `some` output of `_normalize_ip` is canonical. -/
lemma normIp_some_canon {raw v : List Char} (h : normIp raw = some v) : IpCanon v := by
  unfold normIp at h
  split at h
  · exact absurd h (by simp)
  · cases hp : parseIPv4 (replaceBrDot (pyStrip raw)) with
    | none => rw [hp] at h; simp at h
    | some q =>
      obtain ⟨a, b, c, d⟩ := q
      rw [hp] at h
      simp only [Option.some.injEq] at h
      subst h
      obtain ⟨ha, hb, hc, hd⟩ := parseIPv4_some_le hp
      exact ⟨a, b, c, d, ha, hb, hc, hd, rfl⟩

/-! ## splitWs on rendered IP rule lines -/

lemma splitWsAux_cons_nonspace {c : Char} (hc : (c == ' ') = false) (cs acc) :
    splitWsAux (c :: cs) acc = splitWsAux cs (c :: acc) := by
  simp [splitWsAux, hc]

lemma splitWsAux_cons_space (cs acc) (h : acc ≠ []) :
    splitWsAux (' ' :: cs) acc = acc.reverse :: splitWsAux cs [] := by
  have : acc.isEmpty = false := by simpa [List.isEmpty_iff] using h
  simp [splitWsAux, this]

/-- Consuming one space-free word followed by a space. -/
lemma splitWsAux_word (w : List Char) (hw : ∀ c ∈ w, (c == ' ') = false) :
    ∀ (acc rest : List Char), acc ≠ [] ∨ w ≠ [] →
      splitWsAux (w ++ ' ' :: rest) acc = (acc.reverse ++ w) :: splitWsAux rest [] := by
  induction w with
  | nil =>
    intro acc rest h
    have hacc : acc ≠ [] := by
      rcases h with h | h
      · exact h
      · simp at h
    simpa using splitWsAux_cons_space rest acc hacc
  | cons c cs ih =>
    intro acc rest _
    rw [List.cons_append, splitWsAux_cons_nonspace (hw c (by simp)),
      ih (fun d hd => hw d (by simp [hd])) (c :: acc) rest (Or.inl (by simp))]
    simp

/-- The whitespace split of a rendered IP rule line starts with the five
fields `drop ip <ip> any <>`; the message tail contributes further fields. -/
lemma splitWs_renderIpLine (v : List Char) (sid : Nat)
    (hv : ∀ c ∈ v, (c == ' ') = false) (hne : v ≠ []) :
    ∃ t, splitWs (renderIpLine v sid) =
      "drop".data :: "ip".data :: v :: "any".data :: "<>".data :: t := by
  unfold splitWs renderIpLine
  have h1 : "drop ip ".data ++ v ++ " any <> any any (msg:\"SecBot malicious IP ".data ++
      v ++ "\"; sid:".data ++ natToDigits sid ++ "; rev:1;)".data =
      "drop".data ++ ' ' :: ("ip".data ++ ' ' :: (v ++ ' ' :: ("any".data ++ ' ' ::
        ("<>".data ++ ' ' :: ("any any (msg:\"SecBot malicious IP ".data ++
          v ++ "\"; sid:".data ++ natToDigits sid ++ "; rev:1;)".data))))) := by
    simp only [List.cons_append, List.append_assoc]
    rfl
  rw [h1]
  rw [splitWsAux_word _ (by decide) _ _ (Or.inr (by decide)),
    splitWsAux_word _ (by decide) _ _ (Or.inr (by decide)),
    splitWsAux_word _ hv _ _ (Or.inr hne),
    splitWsAux_word _ (by decide) _ _ (Or.inr (by decide)),
    splitWsAux_word _ (by decide) _ _ (Or.inr (by decide))]
  exact ⟨splitWsAux ("any any (msg:\"SecBot malicious IP ".data ++ v ++
    "\"; sid:".data ++ natToDigits sid ++ "; rev:1;)".data) [], by simp⟩

/-- Round-trip of the store's own IP lines through the sniffing loop:
the extracted token is exactly the rendered value. -/
lemma ipLineExtract_render {v : List Char} (sid : Nat) (h : IpCanon v) :
    ipLineExtract (renderIpLine v sid) = some v := by
  have hv : ∀ c ∈ v, (c == ' ') = false :=
    fun c hc => ipChar_not_space (ipCanon_chars h c hc)
  obtain ⟨t, ht⟩ := splitWs_renderIpLine v sid hv (ipCanon_ne_nil h)
  unfold ipLineExtract
  rw [ht]
  have hlen : ¬ ("drop".data :: "ip".data :: v :: "any".data :: "<>".data :: t).length < 3 := by
    simp only [List.length_cons]
    omega
  rw [if_neg hlen]
  norm_num [List.getD]

/-! ## Fold lemmas for the dedup loops -/

lemma mem_dedupAppend {acc : List (List Char)} {x y : List Char} :
    y ∈ dedupAppend acc x ↔ y ∈ acc ∨ y = x := by
  unfold dedupAppend
  split
  · rename_i hm
    constructor
    · exact Or.inl
    · rintro (h | rfl)
      · exact h
      · exact hm
  · simp

lemma dedupAppend_nodup {acc : List (List Char)} {x : List Char} (h : acc.Nodup) :
    (dedupAppend acc x).Nodup := by
  unfold dedupAppend
  split
  · exact h
  · rename_i hm
    simpa [List.nodup_append, h] using hm

lemma mem_of_normAccum {acc : List (List Char)} {raw x : List Char}
    (h : x ∈ normAccum acc raw) : x ∈ acc ∨ normIp raw = some x := by
  unfold normAccum at h
  split at h
  · exact Or.inl h
  · rename_i clean heq
    split at h
    · exact Or.inl h
    · rcases mem_dedupAppend.mp h with h | rfl
      · exact Or.inl h
      · exact Or.inr heq

lemma normAccum_mono {acc : List (List Char)} {raw x : List Char}
    (h : x ∈ acc) : x ∈ normAccum acc raw := by
  unfold normAccum
  split
  · exact h
  · split
    · exact h
    · exact mem_dedupAppend.mpr (Or.inl h)

lemma normAccum_nodup {acc : List (List Char)} {raw : List Char} (h : acc.Nodup) :
    (normAccum acc raw).Nodup := by
  unfold normAccum
  split
  · exact h
  · split
    · exact h
    · exact dedupAppend_nodup h

lemma foldl_normAccum_nodup (raws : List (List Char)) :
    ∀ acc : List (List Char), acc.Nodup → (raws.foldl normAccum acc).Nodup := by
  induction raws with
  | nil => intro acc h; exact h
  | cons r rs ih => intro acc h; exact ih _ (normAccum_nodup h)

lemma mem_foldl_normAccum {raws : List (List Char)} :
    ∀ {acc : List (List Char)} {x : List Char}, x ∈ raws.foldl normAccum acc →
      x ∈ acc ∨ ∃ raw ∈ raws, normIp raw = some x := by
  induction raws with
  | nil => intro acc x h; exact Or.inl h
  | cons r rs ih =>
    intro acc x h
    rcases ih h with h1 | h1
    · rcases mem_of_normAccum h1 with h2 | h2
      · exact Or.inl h2
      · exact Or.inr ⟨r, by simp, h2⟩
    · obtain ⟨raw, hmem, hnorm⟩ := h1
      exact Or.inr ⟨raw, by simp [hmem], hnorm⟩

lemma dedupNormIps_nodup (raws : List (List Char)) : (dedupNormIps raws).Nodup :=
  foldl_normAccum_nodup raws [] List.nodup_nil

lemma dedupNormIps_canon {raws : List (List Char)} :
    ∀ v ∈ dedupNormIps raws, IpCanon v := by
  intro v hv
  rcases mem_foldl_normAccum hv with h | ⟨raw, _, hnorm⟩
  · simp at h
  · exact normIp_some_canon hnorm

/-! ## The existing-rule loop on a store-written file -/

lemma renderIpLines_append (xs ys : List (List Char)) :
    ∀ start, renderIpLines start (xs ++ ys) =
      renderIpLines start xs ++ renderIpLines (start + xs.length) ys := by
  induction xs with
  | nil => intro start; simp [renderIpLines]
  | cons x xs ih =>
    intro start
    show renderIpLine x (BASE_SID + start) :: renderIpLines (start + 1) (xs ++ ys) =
      (renderIpLine x (BASE_SID + start) :: renderIpLines (start + 1) xs) ++
        renderIpLines (start + (x :: xs).length) ys
    rw [List.cons_append, ih (start + 1)]
    have h2 : start + 1 + xs.length = start + (x :: xs).length := by
      simp only [List.length_cons]
      omega
    rw [h2]

lemma ipExistStep_renderLine {acc : List (List Char)} {v : List Char} (sid : Nat)
    (h : IpCanon v) :
    ipExistStep acc (renderIpLine v sid) = dedupAppend acc v := by
  unfold ipExistStep
  rw [ipLineExtract_render sid h]
  show normAccum acc v = dedupAppend acc v
  unfold normAccum
  rw [normIp_canon h]
  show (if v.isEmpty = true then acc else dedupAppend acc v) = dedupAppend acc v
  rw [if_neg (by simpa [List.isEmpty_iff] using ipCanon_ne_nil h)]

lemma foldl_ipExistStep_render (vs : List (List Char)) :
    ∀ (start : Nat) (acc : List (List Char)), (∀ v ∈ vs, IpCanon v) → vs.Nodup →
      (∀ v ∈ vs, v ∉ acc) →
      (renderIpLines start vs).foldl ipExistStep acc = acc ++ vs := by
  induction vs with
  | nil => intro start acc _ _ _; simp [renderIpLines]
  | cons v vs ih =>
    intro start acc hc hnd hdisj
    have hcv : IpCanon v := hc v (by simp)
    simp only [renderIpLines, List.foldl_cons]
    rw [ipExistStep_renderLine _ hcv]
    have hvnotin : v ∉ acc := hdisj v (by simp)
    have hda : dedupAppend acc v = acc ++ [v] := by
      unfold dedupAppend
      rw [if_neg hvnotin]
    rw [hda, ih (start + 1) (acc ++ [v]) (fun w hw => hc w (by simp [hw]))
      (List.Nodup.of_cons hnd)]
    · simp
    · intro w hw
      simp only [List.mem_append, List.mem_singleton]
      rintro (h1 | rfl)
      · exact hdisj w (by simp [hw]) h1
      · exact (List.nodup_cons.mp hnd).1 hw

/-- The sniffing loop recovers exactly the values of a store-written file. -/
lemma ipExisting_ipFileOf {vs : List (List Char)} (hc : ∀ v ∈ vs, IpCanon v)
    (hnd : vs.Nodup) : ipExisting (ipFileOf vs) = vs := by
  unfold ipExisting ipFileOf
  rw [foldl_ipExistStep_render vs 1 [] hc hnd (by simp)]
  simp

/-! ## Characterization of `_write_rules_file` on well-formed state -/

/-- The new values a merge appends against persisted values `vs`. -/
def newVals (raws vs : List (List Char)) : List (List Char) :=
  (dedupNormIps raws).filter (fun ip => !(vs.contains ip))

lemma contains_iff {vs : List (List Char)} {x : List Char} :
    vs.contains x = true ↔ x ∈ vs := by
  simp [List.contains, List.elem_iff]

lemma mem_newVals {raws vs : List (List Char)} {x : List Char} :
    x ∈ newVals raws vs ↔ x ∈ dedupNormIps raws ∧ x ∉ vs := by
  unfold newVals
  rw [List.mem_filter]
  simp [contains_iff]

lemma writeRulesFile_none_eq (raws : List (List Char)) :
    writeRulesFile raws none =
      if (dedupNormIps raws).isEmpty then ⟨none, [], none, 0⟩
      else ⟨some (ipFileOf (dedupNormIps raws)), renderIpLines 1 (dedupNormIps raws),
        some .createWrite, (dedupNormIps raws).length⟩ := by
  simp only [writeRulesFile]
  have hf : (dedupNormIps raws).filter (fun ip => !(List.contains [] ip)) =
      dedupNormIps raws :=
    List.filter_eq_self.mpr (fun a _ => rfl)
  simp only [hf, List.nil_append, ipFileOf]

lemma writeRulesFile_some_eq (raws vs : List (List Char)) (hnd : vs.Nodup)
    (hc : ∀ v ∈ vs, IpCanon v) :
    writeRulesFile raws (some (ipFileOf vs)) =
      if (newVals raws vs).isEmpty then ⟨some (ipFileOf vs), [], none, vs.length⟩
      else ⟨some (ipFileOf (vs ++ newVals raws vs)),
        renderIpLines (vs.length + 1) (newVals raws vs),
        some .appendWrite, vs.length + (newVals raws vs).length⟩ := by
  simp only [writeRulesFile]
  rw [ipExisting_ipFileOf hc hnd]
  have hsplit : (vs ++ (dedupNormIps raws).filter (fun ip => !(vs.contains ip))).filter
      (fun ip => !(vs.contains ip)) = newVals raws vs := by
    rw [List.filter_append]
    have h1 : vs.filter (fun ip => !(vs.contains ip)) = [] :=
      List.filter_eq_nil_iff.mpr (fun a ha => by simp [contains_iff, ha])
    have h2 : ((dedupNormIps raws).filter (fun ip => !(vs.contains ip))).filter
        (fun ip => !(vs.contains ip)) = (dedupNormIps raws).filter
          (fun ip => !(vs.contains ip)) :=
      List.filter_eq_self.mpr (fun a ha => (List.mem_filter.mp ha).2)
    rw [h1, h2, List.nil_append]
    rfl
  simp only [hsplit]
  have hfile : ipFileOf (vs ++ newVals raws vs) =
      ipFileOf vs ++ renderIpLines (vs.length + 1) (newVals raws vs) := by
    unfold ipFileOf
    rw [renderIpLines_append]
    have : 1 + vs.length = vs.length + 1 := by omega
    rw [this]
  rw [hfile]

lemma newVals_nodup (raws vs : List (List Char)) : (newVals raws vs).Nodup :=
  (dedupNormIps_nodup raws).filter _

lemma newVals_canon {raws vs : List (List Char)} : ∀ v ∈ newVals raws vs, IpCanon v :=
  fun v hv => dedupNormIps_canon v (mem_newVals.mp hv).1

/-- Well-formedness of the merged value list. -/
lemma merged_nodup {raws vs : List (List Char)} (hnd : vs.Nodup) :
    (vs ++ newVals raws vs).Nodup := by
  rw [List.nodup_append]
  exact ⟨hnd, newVals_nodup raws vs,
    fun a ha hb => (mem_newVals.mp hb).2 ha⟩

lemma merged_canon {raws vs : List (List Char)} (hc : ∀ v ∈ vs, IpCanon v) :
    ∀ v ∈ vs ++ newVals raws vs, IpCanon v := by
  intro v hv
  rcases List.mem_append.mp hv with h | h
  · exact hc v h
  · exact newVals_canon v h

/-- Every normalized batch value is present after the merge. -/
lemma dedupNorm_subset_merged (raws vs : List (List Char)) :
    ∀ x ∈ dedupNormIps raws, x ∈ vs ++ newVals raws vs := by
  intro x hx
  rw [List.mem_append]
  by_cases hmem : x ∈ vs
  · exact Or.inl hmem
  · exact Or.inr (mem_newVals.mpr ⟨hx, hmem⟩)

/-- A batch whose normalized values are all already present appends nothing. -/
lemma newVals_eq_nil_of_subset {raws vs : List (List Char)}
    (h : ∀ x ∈ dedupNormIps raws, x ∈ vs) : newVals raws vs = [] :=
  List.filter_eq_nil_iff.mpr (fun a ha => by simp [contains_iff, h a ha])

/-- Idempotence of the IP merge at the store level: repeating the same batch
writes nothing and leaves the file's content untouched. -/
lemma writeRules_idem (raws : List (List Char)) {file : Option (List (List Char))}
    (h : IpStore file) :
    (writeRulesFile raws (writeRulesFile raws file).file).written = [] ∧
      (writeRulesFile raws (writeRulesFile raws file).file).file =
        (writeRulesFile raws file).file := by
  rcases h with rfl | ⟨vs, rfl, hnd, hc⟩
  · rw [writeRulesFile_none_eq raws]
    by_cases he : (dedupNormIps raws).isEmpty = true
    · rw [if_pos he]
      rw [writeRulesFile_none_eq raws, if_pos he]
      exact ⟨rfl, rfl⟩
    · rw [if_neg he]
      have hsub : ∀ x ∈ dedupNormIps raws, x ∈ dedupNormIps raws := fun x hx => hx
      have hnil := newVals_eq_nil_of_subset hsub
      rw [writeRulesFile_some_eq raws (dedupNormIps raws) (dedupNormIps_nodup raws)
        dedupNormIps_canon, hnil]
      simp
  · rw [writeRulesFile_some_eq raws vs hnd hc]
    by_cases he : (newVals raws vs).isEmpty = true
    · rw [if_pos he]
      rw [writeRulesFile_some_eq raws vs hnd hc, if_pos he]
      exact ⟨rfl, rfl⟩
    · rw [if_neg he]
      have hnil := newVals_eq_nil_of_subset (dedupNorm_subset_merged raws vs)
      rw [writeRulesFile_some_eq raws (vs ++ newVals raws vs) (merged_nodup hnd)
        (merged_canon hc), hnil]
      simp

/-! ## Positional identifiers -/

lemma mem_zipSids_of_get? (l : List (List Char)) :
    ∀ (start i : Nat) (v : List Char), l.get? i = some v →
      (v, BASE_SID + start + i) ∈ zipSids start l := by
  induction l with
  | nil => intro start i v h; simp at h
  | cons x xs ih =>
    intro start i v h
    cases i with
    | zero =>
      simp only [List.get?_cons_zero, Option.some.injEq] at h
      subst h
      simp [zipSids]
    | succ i =>
      simp only [List.get?_cons_succ] at h
      have := ih (start + 1) i v h
      have harith : BASE_SID + (start + 1) + i = BASE_SID + start + (i + 1) := by omega
      rw [harith] at this
      exact List.mem_cons_of_mem _ this

lemma mem_zipSids (l : List (List Char)) :
    ∀ (start : Nat) (v : List Char) (N : Nat), (v, N) ∈ zipSids start l →
      ∃ i, l.get? i = some v ∧ N = BASE_SID + start + i := by
  induction l with
  | nil => intro start v N h; simp [zipSids] at h
  | cons x xs ih =>
    intro start v N h
    rcases List.mem_cons.mp h with h1 | h1
    · obtain ⟨rfl, rfl⟩ := Prod.mk.injEq .. ▸ h1
      exact ⟨0, by simp, by omega⟩
    · obtain ⟨i, hi, rfl⟩ := ih (start + 1) v N h1
      exact ⟨i + 1, by simpa using hi, by omega⟩

lemma renderIpLines_get? (vs : List (List Char)) :
    ∀ (start i : Nat) (v : List Char), vs.get? i = some v →
      (renderIpLines start vs).get? i =
        some (renderIpLine v (BASE_SID + start + i)) := by
  induction vs with
  | nil => intro start i v h; simp at h
  | cons x xs ih =>
    intro start i v h
    cases i with
    | zero =>
      simp only [List.get?_cons_zero, Option.some.injEq] at h
      subst h
      simp [renderIpLines]
    | succ i =>
      simp only [List.get?_cons_succ] at h
      have := ih (start + 1) i v h
      have harith : BASE_SID + (start + 1) + i = BASE_SID + start + (i + 1) := by omega
      rw [harith] at this
      simpa [renderIpLines] using this

lemma get?_inj_of_nodup {l : List (List Char)} (hnd : l.Nodup) {i j : Nat}
    {v : List Char} (hi : l.get? i = some v) (hj : l.get? j = some v) : i = j := by
  obtain ⟨hilen, hiv⟩ := List.get?_eq_some.mp hi
  obtain ⟨hjlen, hjv⟩ := List.get?_eq_some.mp hj
  have := @List.Nodup.get_inj_iff _ l hnd ⟨i, hilen⟩ ⟨j, hjlen⟩
  have heq : l.get ⟨i, hilen⟩ = l.get ⟨j, hjlen⟩ := by rw [hiv, hjv]
  simpa using this.mp heq

/-! ## The URL rule store (`suricata_url.block_urls`)

The composite `urlparse(url.replace("[:]", ":").replace("[.]", "."))` +
`hostname` / percent-decoded `path` + `query` computation feeding the
`http.host`/`http.uri` fields comes from `urllib.parse` (standard library,
an external collaborator) and enters the model as the `hostUri` parameter;
the store's own line parser never reads those fields. -/

/-- `BASE_SID_URL` in `suricata_url.py`. -/
def BASE_SID_URL : Nat := 7100000

/-- The marker `msg:"SecBot malicious URL ` used by the existing-rule parse. -/
def urlMsgMarker : List Char := "msg:\"SecBot malicious URL ".data

/-- One rendered URL rule line, as written by `block_urls`. -/
def renderUrlLine (hostUri : List Char → List Char × List Char)
    (url : List Char) (sid : Nat) : List Char :=
  "drop http any any -> any any (msg:\"SecBot malicious URL ".data ++ url ++
    "\"; http.host; content:\"".data ++ (hostUri url).1 ++
    "\"; http.uri; content:\"".data ++ (hostUri url).2 ++
    "\"; sid:".data ++ natToDigits sid ++ "; rev:1;)".data

/-- The rule lines for `urls` numbered from `start`
(`sid = BASE_SID_URL + idx`). -/
def renderUrlLines (hostUri : List Char → List Char × List Char) (start : Nat) :
    List (List Char) → List (List Char)
  | [] => []
  | u :: rest =>
    renderUrlLine hostUri u (BASE_SID_URL + start) ::
      renderUrlLines hostUri (start + 1) rest

/-- The per-line URL recovery of `block_urls` step 4:
`line.split('msg:"SecBot malicious URL ', 1)[1]` (skip the line when the
marker is absent — the `IndexError` is caught) and then
`part.split('";', 1)[0]` (the whole part when `";` is absent). -/
def urlLineExtract (line : List Char) : Option (List Char) :=
  match splitFirst urlMsgMarker line with
  | none => none
  | some (_, part) =>
    match splitFirst ['"', ';'] part with
    | some (url, _) => some url
    | none => some part

/-- Adding one parsed line to the `existing_urls` set (modelled as the
insertion-ordered duplicate-free list; only membership and size are used). -/
def urlExistStep (acc : List (List Char)) (line : List Char) : List (List Char) :=
  match urlLineExtract line with
  | none => acc
  | some u => dedupAppend acc u

/-- The set of URLs parsed from the existing file (`existing_urls`). -/
def urlExisting (lines : List (List Char)) : List (List Char) :=
  lines.foldl urlExistStep []

/-- `sorted({u.strip() for u in urls if u.strip()})`. -/
def urlUniq (raws : List (List Char)) : List (List Char) :=
  sortedSet ((raws.map pyStrip).filter (fun u => !u.isEmpty))

/-- Result of one `block_urls` call. -/
structure UrlOut where
  file : Option (List (List Char))
  written : List (List Char)
  wrote : Option WriteMethod
  reloaded : Bool

/-- `suricata_url.block_urls`: dedup and sort the batch, parse the existing
file, append only new URLs (write everything when the file is absent), and
always reload Suricata at the end. -/
def blockUrls (hostUri : List Char → List Char × List Char)
    (raws : List (List Char)) (file : Option (List (List Char))) : UrlOut :=
  let uniq := urlUniq raws
  let existing := match file with | none => [] | some ls => urlExisting ls
  let newUrls := uniq.filter (fun u => !(existing.contains u))
  match file with
  | none =>
    if uniq.isEmpty then ⟨none, [], none, true⟩
    else
      ⟨some (renderUrlLines hostUri 1 uniq), renderUrlLines hostUri 1 uniq,
        some .createWrite, true⟩
  | some ls =>
    if newUrls.isEmpty then ⟨some ls, [], none, true⟩
    else
      ⟨some (ls ++ renderUrlLines hostUri (existing.length + 1) newUrls),
        renderUrlLines hostUri (existing.length + 1) newUrls,
        some .appendWrite, true⟩

/-! ## splitFirst lemmas and the URL line round-trip -/

lemma isPrefixOf_append_left (p a b : List Char) (h : p.length ≤ a.length) :
    p.isPrefixOf (a ++ b) = p.isPrefixOf a := by
  induction p generalizing a with
  | nil => simp [List.isPrefixOf]
  | cons x xs ih =>
    cases a with
    | nil => simp at h
    | cons y ys =>
      show List.isPrefixOf (x :: xs) (y :: (ys ++ b)) = _
      simp only [List.isPrefixOf]
      rw [ih ys (by simpa using h)]

lemma splitFirst_exact (pat x y : List Char) (hpat : pat ≠ [])
    (h : ∀ i, i < x.length → pat.isPrefixOf (x.drop i ++ pat) = false) :
    splitFirst pat (x ++ pat ++ y) = some (x, y) := by
  induction x with
  | nil =>
    cases pat with
    | nil => exact absurd rfl hpat
    | cons p ps =>
      have hpre : (p :: ps).isPrefixOf (p :: (ps ++ y)) = true :=
        List.isPrefixOf_iff_prefix.mpr (List.prefix_append _ _)
      show splitFirst (p :: ps) (p :: (ps ++ y)) = some ([], y)
      unfold splitFirst
      rw [hpre]
      show some ([], (p :: (ps ++ y)).drop (p :: ps).length) = some ([], y)
      rw [show p :: (ps ++ y) = (p :: ps) ++ y from rfl, List.drop_left]
  | cons c x' ih =>
    have hfalse : pat.isPrefixOf (c :: (x' ++ pat ++ y)) = false := by
      have h0 := h 0 (by simp)
      simp only [List.drop_zero] at h0
      have hlen : pat.length ≤ ((c :: x') ++ pat).length := by
        simp [List.length_append]
        omega
      calc pat.isPrefixOf (c :: (x' ++ pat ++ y))
          = pat.isPrefixOf (((c :: x') ++ pat) ++ y) := by
            simp [List.append_assoc]
        _ = pat.isPrefixOf ((c :: x') ++ pat) := isPrefixOf_append_left _ _ _ hlen
        _ = false := h0
    show splitFirst pat (c :: (x' ++ pat ++ y)) = some (c :: x', y)
    unfold splitFirst
    rw [hfalse]
    rw [ih (fun i hi => by simpa using h (i + 1) (by simpa using hi))]
    rfl

lemma splitFirst_exact_of_head {q : Char} {ps x y : List Char} (hq : q ∉ x) :
    splitFirst (q :: ps) (x ++ (q :: ps) ++ y) = some (x, y) := by
  apply splitFirst_exact _ _ _ (by simp)
  intro i hi
  rw [List.drop_eq_getElem_cons hi]
  show List.isPrefixOf (q :: ps) (x[i] :: (x.drop (i + 1) ++ (q :: ps))) = false
  have hmem : x[i] ∈ x := List.getElem_mem hi
  have hne : ¬ q = x[i] := fun hh => hq (hh ▸ hmem)
  simp [List.isPrefixOf, hne]

/-- The store's line parse on any line of the rendered shape: the URL field
is recovered exactly whenever it contains no `"` character, independently of
what follows the `";` delimiter. -/
lemma urlLineExtract_shape (u rest : List Char) (hq : '"' ∉ u) :
    urlLineExtract ("drop http any any -> any any (".data ++ urlMsgMarker ++
      (u ++ (['"', ';'] ++ rest))) = some u := by
  unfold urlLineExtract
  rw [splitFirst_exact _ _ _ (by decide) (by decide)]
  have h2 := @splitFirst_exact_of_head '"' [';'] u rest hq
  rw [← List.append_assoc]
  simp only [h2]

/-- Round-trip of the store's own URL lines: the URL is recovered exactly
whenever it contains no `"` character (true of all URL indicators — the
extractor grammar excludes quotes), independently of the host/URI fields. -/
lemma urlLineExtract_render (hostUri : List Char → List Char × List Char)
    {u : List Char} (sid : Nat) (hq : '"' ∉ u) :
    urlLineExtract (renderUrlLine hostUri u sid) = some u := by
  have hline : renderUrlLine hostUri u sid =
      "drop http any any -> any any (".data ++ urlMsgMarker ++
        (u ++ (['"', ';'] ++ (" http.host; content:\"".data ++ (hostUri u).1 ++
          "\"; http.uri; content:\"".data ++ (hostUri u).2 ++
          "\"; sid:".data ++ natToDigits sid ++ "; rev:1;)".data))) := by
    simp only [renderUrlLine, urlMsgMarker, List.cons_append, List.append_assoc,
      List.nil_append]
  rw [hline]
  exact urlLineExtract_shape u _ hq

/-! ## URL store lemmas -/

lemma mem_insSorted {x y : List Char} {l : List (List Char)} :
    y ∈ insSorted x l ↔ y ∈ l ∨ y = x := by
  induction l with
  | nil => simp [insSorted]
  | cons z zs ih =>
    unfold insSorted
    cases h1 : lexLt x z with
    | true =>
      simp only [cond_true, List.mem_cons]
      tauto
    | false =>
      cases h2 : x == z with
      | true =>
        have hxz : x = z := by simpa using h2
        simp only [cond_false, cond_true, List.mem_cons]
        subst hxz
        tauto
      | false =>
        simp only [cond_false, List.mem_cons, ih]
        tauto

lemma mem_sortedSet {l : List (List Char)} {y : List Char} :
    y ∈ sortedSet l ↔ y ∈ l := by
  induction l with
  | nil => simp [sortedSet]
  | cons x xs ih =>
    show y ∈ insSorted x (sortedSet xs) ↔ _
    rw [mem_insSorted, ih]
    simp [List.mem_cons]
    tauto

lemma mem_pyStrip_sub {c : Char} {s : List Char} (h : c ∈ pyStrip s) : c ∈ s := by
  unfold pyStrip at h
  rw [List.mem_reverse] at h
  have h1 := (List.dropWhile_sublist _).mem h
  rw [List.mem_reverse] at h1
  exact (List.dropWhile_sublist _).mem h1

lemma mem_urlUniq_of {raws : List (List Char)} {u : List Char}
    (h : u ∈ urlUniq raws) : ∃ raw ∈ raws, u = pyStrip raw := by
  unfold urlUniq at h
  rw [mem_sortedSet] at h
  obtain ⟨hmem, _⟩ := List.mem_filter.mp h
  obtain ⟨raw, hraw, rfl⟩ := List.mem_map.mp hmem
  exact ⟨raw, hraw, rfl⟩

/-- Uniqued batch values are quote-free when the raw batch is. -/
lemma urlUniq_quote_free {raws : List (List Char)}
    (hq : ∀ r ∈ raws, '"' ∉ r) : ∀ u ∈ urlUniq raws, '"' ∉ u := by
  intro u hu hmem
  obtain ⟨raw, hraw, rfl⟩ := mem_urlUniq_of hu
  exact hq raw hraw (mem_pyStrip_sub hmem)

lemma mem_foldl_dedupAppend {xs : List (List Char)} :
    ∀ {acc : List (List Char)} {y : List Char},
      y ∈ xs.foldl dedupAppend acc ↔ y ∈ acc ∨ y ∈ xs := by
  induction xs with
  | nil => simp
  | cons x xs ih =>
    intro acc y
    show y ∈ xs.foldl dedupAppend (dedupAppend acc x) ↔ _
    rw [ih, mem_dedupAppend]
    simp [List.mem_cons]
    tauto

lemma urlExistStep_render (hostUri : List Char → List Char × List Char)
    {acc : List (List Char)} {u : List Char} (sid : Nat) (hq : '"' ∉ u) :
    urlExistStep acc (renderUrlLine hostUri u sid) = dedupAppend acc u := by
  unfold urlExistStep
  rw [urlLineExtract_render hostUri sid hq]

lemma foldl_urlExistStep_render (hostUri : List Char → List Char × List Char)
    (us : List (List Char)) (hq : ∀ u ∈ us, '"' ∉ u) :
    ∀ (start : Nat) (acc : List (List Char)),
      (renderUrlLines hostUri start us).foldl urlExistStep acc =
        us.foldl dedupAppend acc := by
  induction us with
  | nil => intro start acc; rfl
  | cons u us ih =>
    intro start acc
    show (renderUrlLines hostUri (start + 1) us).foldl urlExistStep
        (urlExistStep acc (renderUrlLine hostUri u (BASE_SID_URL + start))) = _
    rw [urlExistStep_render hostUri _ (hq u (by simp))]
    exact ih (fun w hw => hq w (by simp [hw])) (start + 1) (dedupAppend acc u)

/-- Membership in the existing-URL set after appending store-rendered lines. -/
lemma mem_urlExisting_append (hostUri : List Char → List Char × List Char)
    (ls us : List (List Char)) (start : Nat) (hq : ∀ u ∈ us, '"' ∉ u)
    {y : List Char} :
    y ∈ urlExisting (ls ++ renderUrlLines hostUri start us) ↔
      y ∈ urlExisting ls ∨ y ∈ us := by
  unfold urlExisting
  rw [List.foldl_append, foldl_urlExistStep_render hostUri us hq]
  exact mem_foldl_dedupAppend

lemma mem_urlExisting_render (hostUri : List Char → List Char × List Char)
    (us : List (List Char)) (start : Nat) (hq : ∀ u ∈ us, '"' ∉ u)
    {y : List Char} :
    y ∈ urlExisting (renderUrlLines hostUri start us) ↔ y ∈ us := by
  unfold urlExisting
  rw [foldl_urlExistStep_render hostUri us hq]
  rw [mem_foldl_dedupAppend]
  simp

/-! ## blockUrls characterization and idempotence -/

lemma blockUrls_none_eq (hostUri : List Char → List Char × List Char)
    (raws : List (List Char)) :
    blockUrls hostUri raws none =
      if (urlUniq raws).isEmpty then ⟨none, [], none, true⟩
      else ⟨some (renderUrlLines hostUri 1 (urlUniq raws)),
        renderUrlLines hostUri 1 (urlUniq raws), some .createWrite, true⟩ := rfl

lemma blockUrls_some_eq (hostUri : List Char → List Char × List Char)
    (raws ls : List (List Char)) :
    blockUrls hostUri raws (some ls) =
      if ((urlUniq raws).filter
          (fun u => !((urlExisting ls).contains u))).isEmpty then
        ⟨some ls, [], none, true⟩
      else
        ⟨some (ls ++ renderUrlLines hostUri ((urlExisting ls).length + 1)
            ((urlUniq raws).filter (fun u => !((urlExisting ls).contains u)))),
          renderUrlLines hostUri ((urlExisting ls).length + 1)
            ((urlUniq raws).filter (fun u => !((urlExisting ls).contains u))),
          some .appendWrite, true⟩ := rfl

/-- Idempotence of the URL merge: repeating the same (quote-free) batch
writes nothing and leaves the file's content untouched; the reload is
invoked by both calls regardless. -/
lemma blockUrls_idem (hostUri : List Char → List Char × List Char)
    (raws : List (List Char)) (file : Option (List (List Char)))
    (hq : ∀ r ∈ raws, '"' ∉ r) :
    (blockUrls hostUri raws (blockUrls hostUri raws file).file).written = [] ∧
      (blockUrls hostUri raws (blockUrls hostUri raws file).file).file =
        (blockUrls hostUri raws file).file := by
  have huq := urlUniq_quote_free hq
  cases file with
  | none =>
    rw [blockUrls_none_eq hostUri raws]
    by_cases he : (urlUniq raws).isEmpty = true
    · rw [if_pos he, blockUrls_none_eq hostUri raws, if_pos he]
      exact ⟨rfl, rfl⟩
    · rw [if_neg he]
      rw [blockUrls_some_eq hostUri raws _]
      have hnil : (urlUniq raws).filter (fun u =>
          !((urlExisting (renderUrlLines hostUri 1 (urlUniq raws))).contains u)) = [] := by
        apply List.filter_eq_nil_iff.mpr
        intro a ha
        have : a ∈ urlExisting (renderUrlLines hostUri 1 (urlUniq raws)) :=
          (mem_urlExisting_render hostUri _ 1 huq).mpr ha
        simp [contains_iff, this]
      rw [hnil]
      simp
  | some ls =>
    rw [blockUrls_some_eq hostUri raws ls]
    by_cases he : ((urlUniq raws).filter
        (fun u => !((urlExisting ls).contains u))).isEmpty = true
    · rw [if_pos he, blockUrls_some_eq hostUri raws ls, if_pos he]
      exact ⟨rfl, rfl⟩
    · rw [if_neg he]
      set nu := (urlUniq raws).filter (fun u => !((urlExisting ls).contains u)) with hnu
      have hnuq : ∀ u ∈ nu, '"' ∉ u := fun u hu =>
        huq u (List.mem_filter.mp hu).1
      rw [blockUrls_some_eq hostUri raws _]
      have hnil : (urlUniq raws).filter (fun u =>
          !((urlExisting (ls ++ renderUrlLines hostUri ((urlExisting ls).length + 1)
            nu)).contains u)) = [] := by
        apply List.filter_eq_nil_iff.mpr
        intro a ha
        have hmem : a ∈ urlExisting (ls ++ renderUrlLines hostUri
            ((urlExisting ls).length + 1) nu) := by
          rw [mem_urlExisting_append hostUri ls nu _ hnuq]
          by_cases hin : a ∈ urlExisting ls
          · exact Or.inl hin
          · refine Or.inr (List.mem_filter.mpr ⟨ha, ?_⟩)
            simp [contains_iff, hin]
        simp [contains_iff, hmem]
      rw [hnil]
      simp

/-! ## The hash store (`suricata_hash.block_hashes`) -/

/-- `BASE_SID_HASH` in `suricata_hash.py`. -/
def BASE_SID_HASH : Nat := 7200000

/-- The single hash rule line `block_hashes` writes; `filemd5:` references
`HASH_LIST_PATH.name` (the default `secbot-hash.list`), and the sid is the
constant `BASE_SID_HASH = 7200000`. -/
def hashRuleLine : List Char :=
  ("drop http any any -> any any (msg:\"SecBot malicious file download\"; " ++
    "flow:established; filemd5:secbot-hash.list; sid:7200000; rev:1;)").data

/-- `Path.read_text()` of a file whose lines were each written with a
trailing newline. -/
def joinLines (ls : List (List Char)) : List Char :=
  ls.foldr (fun l acc => l ++ '\n' :: acc) []

/-- The two files `block_hashes` manages: the auxiliary hash list (always
rewritten in full) and the rule file. -/
structure HashState where
  listFile : List (List Char)
  rulesFile : Option (List (List Char))

/-- `suricata_hash.block_hashes`: dedup/lower-case/sort the hashes, overwrite
the list file, create or append the single rule line (checked by substring
containment against the file text), then always reload Suricata. -/
def blockHashes (raws : List (List Char)) (st : HashState) : HashState × Bool :=
  let uniq := sortedSet ((raws.filter (fun h => !(pyStrip h).isEmpty)).map
    (fun h => (pyStrip h).map Char.toLower))
  let rulesFile' :=
    match st.rulesFile with
    | none => some [hashRuleLine]
    | some ls =>
      if containsSub hashRuleLine (joinLines ls) then some ls
      else some (ls ++ [hashRuleLine])
  (⟨uniq, rulesFile'⟩, true)

/-! ## Reload coordinator (`_reload_suricata`) -/

/-- Outcomes of the external interactions a reload can attempt. -/
structure ReloadEnv where
  binExists : Bool
  configTestOk : Bool
  scAvail : Bool
  scOk : Bool
  pidFileExists : Bool

/-- The externally visible reload actions, in order of attempt. -/
inductive ReloadAct
  | configTest
  | scReload
  | signalUsr2
deriving DecidableEq, Repr

/-- `suricata._reload_suricata`: a missing binary makes `_run_suricata_cmd`
raise `RuntimeError` before any process runs; a failing `-T` self-test
raises `CalledProcessError`, caught by the outer handler with nothing
further attempted; otherwise `suricatasc reload-rules` when available (with
USR2 fallback on its failure, skipped when the PID file is absent), else the
USR2 fallback directly. -/
def reloadSuricataIp (e : ReloadEnv) : List ReloadAct :=
  if ¬ e.binExists then []
  else if ¬ e.configTestOk then [.configTest]
  else if e.scAvail then
    if e.scOk then [.configTest, .scReload]
    else [.configTest, .scReload] ++ (if e.pidFileExists then [.signalUsr2] else [])
  else [.configTest] ++ (if e.pidFileExists then [.signalUsr2] else [])

/-- `_reload_suricata` as duplicated in `suricata_url.py` and
`suricata_hash.py`: same ladder, but the binary is invoked directly by
`subprocess.run` (the model assumes the executable starts; a missing binary
would raise `FileNotFoundError` out of the function). -/
def reloadSuricataAux (e : ReloadEnv) : List ReloadAct :=
  if ¬ e.configTestOk then [.configTest]
  else if e.scAvail then
    if e.scOk then [.configTest, .scReload]
    else [.configTest, .scReload] ++ (if e.pidFileExists then [.signalUsr2] else [])
  else [.configTest] ++ (if e.pidFileExists then [.signalUsr2] else [])

/-! ## The orchestrator's defense dispatch (`main.job`, lines 38–64) -/

/-- The three `enable_*` switches consulted by `job`. -/
structure Settings where
  enableSuricata : Bool
  enableSuricataUrl : Bool
  enableSuricataHash : Bool

/-- One cycle's IOC batch, as returned by the extraction stage. -/
structure IocBatch where
  ip : List (List Char)
  url : List (List Char)
  hash : List (List Char)

/-- The indicator kinds dispatched by `job`. -/
inductive KindTag
  | ip
  | url
  | hash
deriving DecidableEq, Repr

/-- The persisted state all three defense integrations act on. -/
structure DefenseState where
  ipFile : Option (List (List Char))
  urlFile : Option (List (List Char))
  hashState : HashState

/-- Result of one cycle's defense dispatch: the new persisted state, the
kinds whose block function was invoked in call order, and the number of
`_reload_suricata` invocations. -/
structure CycleOut where
  state : DefenseState
  order : List KindTag
  reloads : Nat

/-- `normalized_ioc` in `job`: `[.]`→`.` on the ip and url entries, hashes
kept as-is. -/
def normalizeIoc (ioc : IocBatch) : IocBatch :=
  ⟨ioc.ip.map replaceBrDot, ioc.url.map replaceBrDot, ioc.hash⟩

/-- The defense-dispatch portion of `main.job`: after normalization, the
three `if settings.enable_* and normalized_ioc[kind]:` blocks run in source
order — IP (`suricata.block`), then URL (`suricata_url.block_urls`), then
HASH (`suricata_hash.block_hashes`) — each invoking its own reload. -/
def jobDefense (hostUri : List Char → List Char × List Char) (st : Settings)
    (ioc : IocBatch) (ds : DefenseState) : CycleOut :=
  let n := normalizeIoc ioc
  let ipInv := st.enableSuricata && !n.ip.isEmpty
  let urlInv := st.enableSuricataUrl && !n.url.isEmpty
  let hashInv := st.enableSuricataHash && !n.hash.isEmpty
  let ipRes := blockIp n.ip ds.ipFile
  let urlRes := blockUrls hostUri n.url ds.urlFile
  let hashRes := blockHashes n.hash ds.hashState
  { state := ⟨if ipInv then ipRes.1.file else ds.ipFile,
      if urlInv then urlRes.file else ds.urlFile,
      if hashInv then hashRes.1 else ds.hashState⟩
    order := (if ipInv then [KindTag.ip] else []) ++
      (if urlInv then [KindTag.url] else []) ++
      (if hashInv then [KindTag.hash] else [])
    reloads := (if ipInv && ipRes.2 then 1 else 0) +
      (if urlInv && urlRes.reloaded then 1 else 0) +
      (if hashInv && hashRes.2 then 1 else 0) }

/-! ## IOC extraction (`parsers/ioc.py::extract`) -/

/-- `_sorted_unique`: `sorted(set(matches))`.  (The `lru_cache` decoration is
semantically transparent for a pure function.) -/
def sortedUnique (ms : List (List Char)) : List (List Char) :=
  sortedSet ms

/-- `extract`: iterate `_KIND_ORDER = ("ip", "hash", "url")`, run the kind's
compiled pattern's `findall` (Python `re`, external — passed as the three
matcher parameters), and store the deduplicated sorted matches under the
kind's key.  The result dictionary is modelled as the insertion-ordered
association list. -/
def extract (findIp findHash findUrl : List Char → List (List Char))
    (text : List Char) : List (List Char × List (List Char)) :=
  [("ip".data, sortedUnique (findIp text)),
    ("hash".data, sortedUnique (findHash text)),
    ("url".data, sortedUnique (findUrl text))]

/-! ## The code-point order: strictness, transitivity, trichotomy -/

lemma lexLt_cons_iff {x y : Char} {xs ys : List Char} :
    lexLt (x :: xs) (y :: ys) = true ↔
      x.toNat < y.toNat ∨ (x.toNat = y.toNat ∧ lexLt xs ys = true) := by
  show (bif decide (x.toNat < y.toNat) then true
    else bif decide (y.toNat < x.toNat) then false else lexLt xs ys) = true ↔ _
  by_cases h1 : x.toNat < y.toNat
  · simp [h1]
  · by_cases h2 : y.toNat < x.toNat
    · rw [show (bif decide (x.toNat < y.toNat) then true
        else bif decide (y.toNat < x.toNat) then false else lexLt xs ys) = false
        from by simp [h1, h2]]
      simp only [Bool.false_eq_true, false_iff]
      rintro (h | ⟨h, _⟩) <;> omega
    · have hxy : x.toNat = y.toNat := by omega
      simp [h1, h2, hxy]

lemma lexLt_irrefl : ∀ l : List Char, lexLt l l = false := by
  intro l
  induction l with
  | nil => rfl
  | cons x xs ih =>
    rw [Bool.eq_false_iff]
    intro hcon
    rcases lexLt_cons_iff.mp hcon with h | ⟨_, h⟩
    · omega
    · rw [ih] at h
      simp at h

lemma lexLt_trans : ∀ (a b c : List Char),
    lexLt a b = true → lexLt b c = true → lexLt a c = true := by
  intro a
  induction a with
  | nil =>
    intro b c h1 h2
    cases b with
    | nil => simp [lexLt] at h1
    | cons y ys =>
      cases c with
      | nil => simp [lexLt] at h2
      | cons z zs => simp [lexLt]
  | cons x xs ih =>
    intro b c h1 h2
    cases b with
    | nil => simp [lexLt] at h1
    | cons y ys =>
      cases c with
      | nil => simp [lexLt] at h2
      | cons z zs =>
        rw [lexLt_cons_iff] at h1 h2 ⊢
        rcases h1 with h1 | ⟨h1e, h1t⟩
        · rcases h2 with h2 | ⟨h2e, _⟩
          · exact Or.inl (by omega)
          · exact Or.inl (by omega)
        · rcases h2 with h2 | ⟨h2e, h2t⟩
          · exact Or.inl (by omega)
          · exact Or.inr ⟨by omega, ih ys zs h1t h2t⟩

lemma char_toNat_inj {x y : Char} (h : x.toNat = y.toNat) : x = y := by
  have := congrArg Char.ofNat h
  rwa [Char.ofNat_toNat, Char.ofNat_toNat] at this

lemma lexLt_trichot : ∀ a b : List Char,
    lexLt a b = true ∨ a = b ∨ lexLt b a = true := by
  intro a
  induction a with
  | nil =>
    intro b
    cases b with
    | nil => exact Or.inr (Or.inl rfl)
    | cons y ys => exact Or.inl (by simp [lexLt])
  | cons x xs ih =>
    intro b
    cases b with
    | nil => exact Or.inr (Or.inr (by simp [lexLt]))
    | cons y ys =>
      rcases Nat.lt_trichotomy x.toNat y.toNat with h | h | h
      · exact Or.inl (lexLt_cons_iff.mpr (Or.inl h))
      · rcases ih ys with ht | ht | ht
        · exact Or.inl (lexLt_cons_iff.mpr (Or.inr ⟨h, ht⟩))
        · exact Or.inr (Or.inl (by rw [char_toNat_inj h, ht]))
        · exact Or.inr (Or.inr (lexLt_cons_iff.mpr (Or.inr ⟨h.symm, ht⟩)))
      · exact Or.inr (Or.inr (lexLt_cons_iff.mpr (Or.inl h)))

/-! ## Sortedness of `sorted(set(...))` -/

/-- Strictly ascending in the Python string order. -/
def StrictAsc (l : List (List Char)) : Prop :=
  l.Pairwise (fun a b => lexLt a b = true)

lemma insSorted_strictAsc {x : List Char} {l : List (List Char)}
    (hs : StrictAsc l) : StrictAsc (insSorted x l) := by
  induction l with
  | nil => simp [insSorted, StrictAsc]
  | cons y ys ih =>
    have hs' : StrictAsc ys := (List.pairwise_cons.mp hs).2
    have hy : ∀ z ∈ ys, lexLt y z = true := (List.pairwise_cons.mp hs).1
    unfold insSorted
    cases h1 : lexLt x y with
    | true =>
      simp only [cond_true]
      refine List.pairwise_cons.mpr ⟨?_, hs⟩
      intro z hz
      rcases List.mem_cons.mp hz with rfl | hz
      · exact h1
      · exact lexLt_trans x y z h1 (hy z hz)
    | false =>
      cases h2 : x == y with
      | true => simpa [cond_false, cond_true] using hs
      | false =>
        simp only [cond_false]
        have hxney : x ≠ y := by simpa using h2
        have hyx : lexLt y x = true := by
          rcases lexLt_trichot x y with ht | ht | ht
          · rw [h1] at ht; simp at ht
          · exact absurd ht hxney
          · exact ht
        refine List.pairwise_cons.mpr ⟨?_, ih hs'⟩
        intro z hz
        rcases mem_insSorted.mp hz with hz | rfl
        · exact hy z hz
        · exact hyx

lemma sortedSet_strictAsc (l : List (List Char)) : StrictAsc (sortedSet l) := by
  induction l with
  | nil => simp [sortedSet, StrictAsc]
  | cons x xs ih => exact insSorted_strictAsc ih

lemma sortedSet_nodup (l : List (List Char)) : (sortedSet l).Nodup := by
  have h := sortedSet_strictAsc l
  unfold StrictAsc at h
  refine h.imp ?_
  intro a b hab
  intro hcon
  subst hcon
  rw [lexLt_irrefl] at hab
  simp at hab

/-! # Claims -/

/-- Claim C1: merging the same batch twice is idempotent.  For both the IP
store (`_write_rules_file`) and the URL store (`block_urls`), the first
merge may append new rule entries, but the second merge of the identical
batch writes no lines and leaves the rule file's content byte-for-byte
unchanged.  The IP side holds for every well-formed persisted state and
every raw batch; the URL side holds for every persisted state and every
batch of quote-free values (all URL indicators are quote-free — the
extractor grammar `[^\s'\"<>]` excludes `"`). -/
theorem C1_merge_idempotent
    (ipRaws : List (List Char)) (ipFile : Option (List (List Char)))
    (hwf : IpStore ipFile)
    (hostUri : List Char → List Char × List Char)
    (urlRaws : List (List Char)) (urlFile : Option (List (List Char)))
    (hq : ∀ r ∈ urlRaws, '"' ∉ r) :
    ((writeRulesFile ipRaws (writeRulesFile ipRaws ipFile).file).written = [] ∧
      (writeRulesFile ipRaws (writeRulesFile ipRaws ipFile).file).file =
        (writeRulesFile ipRaws ipFile).file) ∧
    ((blockUrls hostUri urlRaws (blockUrls hostUri urlRaws urlFile).file).written = [] ∧
      (blockUrls hostUri urlRaws (blockUrls hostUri urlRaws urlFile).file).file =
        (blockUrls hostUri urlRaws urlFile).file) :=
  ⟨writeRules_idem ipRaws hwf, blockUrls_idem hostUri urlRaws urlFile hq⟩

/-- Witness for C1 at a concrete batch and empty initial state. -/
theorem C1_merge_idempotent_witness :
    (writeRulesFile ["1.2.3.4".data]
      (writeRulesFile ["1.2.3.4".data] none).file).written = [] ∧
    (blockUrls (fun _ => ([], [])) ["http://a/b".data]
      (blockUrls (fun _ => ([], [])) ["http://a/b".data] none).file).written = [] := by
  have h := C1_merge_idempotent ["1.2.3.4".data] none (Or.inl rfl)
    (fun _ => ([], [])) ["http://a/b".data] none (by decide)
  exact ⟨h.1.1, h.2.1⟩

/-- Claim C2: rule identifiers are stable.  For a value `v` persisted at
0-based position `i` of the IP store's file (so its rule line carries
`sid = BASE_SID + 1 + i`), re-merging any batch leaves that exact line, in
that position, unchanged, and the store state re-derived from the resulting
file (simulated restart) assigns `v` exactly the identifier
`BASE_SID + 1 + i` again.  For the URL store, re-merging any batch never
rewrites an existing line, so the `sid` persisted in it is unchanged. -/
theorem C2_stable_identifiers
    (vs : List (List Char)) (hnd : vs.Nodup) (hc : ∀ v ∈ vs, IpCanon v)
    (i : Nat) (v : List Char) (hv : vs.get? i = some v)
    (raws : List (List Char))
    (hostUri : List Char → List Char × List Char)
    (urlRaws : List (List Char)) (ls : List (List Char))
    (j : Nat) (line : List Char) (hl : ls.get? j = some line) :
    (∃ ls1, (writeRulesFile raws (some (ipFileOf vs))).file = some ls1 ∧
      ls1.get? i = some (renderIpLine v (BASE_SID + 1 + i)) ∧
      (v, BASE_SID + 1 + i) ∈ reconstructIp ls1 ∧
      (∀ N, (v, N) ∈ reconstructIp ls1 → N = BASE_SID + 1 + i)) ∧
    (∃ ls2, (blockUrls hostUri urlRaws (some ls)).file = some ls2 ∧
      ls2.get? j = some line) := by
  have hilen : i < vs.length := (List.get?_eq_some.mp hv).1
  constructor
  · rw [writeRulesFile_some_eq raws vs hnd hc]
    by_cases he : (newVals raws vs).isEmpty = true
    · rw [if_pos he]
      refine ⟨ipFileOf vs, rfl, ?_, ?_, ?_⟩
      · exact renderIpLines_get? vs 1 i v hv
      · unfold reconstructIp
        rw [ipExisting_ipFileOf hc hnd]
        exact mem_zipSids_of_get? vs 1 i v hv
      · intro N hN
        unfold reconstructIp at hN
        rw [ipExisting_ipFileOf hc hnd] at hN
        obtain ⟨k, hk, rfl⟩ := mem_zipSids vs 1 v N hN
        rw [get?_inj_of_nodup hnd hk hv]
    · rw [if_neg he]
      have hnd' := @merged_nodup raws vs hnd
      have hc' := @merged_canon raws vs hc
      have hv' : (vs ++ newVals raws vs).get? i = some v := by
        rw [List.get?_append hilen]
        exact hv
      refine ⟨ipFileOf (vs ++ newVals raws vs), rfl, ?_, ?_, ?_⟩
      · exact renderIpLines_get? _ 1 i v hv'
      · unfold reconstructIp
        rw [ipExisting_ipFileOf hc' hnd']
        exact mem_zipSids_of_get? _ 1 i v hv'
      · intro N hN
        unfold reconstructIp at hN
        rw [ipExisting_ipFileOf hc' hnd'] at hN
        obtain ⟨k, hk, rfl⟩ := mem_zipSids _ 1 v N hN
        rw [get?_inj_of_nodup hnd' hk hv']
  · rw [blockUrls_some_eq hostUri urlRaws ls]
    have hjlen : j < ls.length := (List.get?_eq_some.mp hl).1
    by_cases he : ((urlUniq urlRaws).filter
        (fun u => !((urlExisting ls).contains u))).isEmpty = true
    · rw [if_pos he]
      exact ⟨ls, rfl, hl⟩
    · rw [if_neg he]
      refine ⟨_, rfl, ?_⟩
      rw [List.get?_append hjlen]
      exact hl

/-- Witness for C2: `1.2.3.4` sits at position 0 (sid 7000001); after
merging a batch containing it together with a new value, its line, its sid
and its re-derived identifier are unchanged. -/
theorem C2_stable_identifiers_witness :
    (∃ ls1, (writeRulesFile ["5.6.7.8".data, "1.2.3.4".data]
        (some (ipFileOf ["1.2.3.4".data]))).file = some ls1 ∧
      ls1.get? 0 = some (renderIpLine "1.2.3.4".data (BASE_SID + 1 + 0)) ∧
      ("1.2.3.4".data, BASE_SID + 1 + 0) ∈ reconstructIp ls1 ∧
      (∀ N, ("1.2.3.4".data, N) ∈ reconstructIp ls1 → N = BASE_SID + 1 + 0)) ∧
    (∃ ls2, (blockUrls (fun _ => ([], [])) ["http://c/d".data]
        (some [renderUrlLine (fun _ => ([], [])) "http://a/b".data 7100001])).file =
          some ls2 ∧
      ls2.get? 0 = some (renderUrlLine (fun _ => ([], [])) "http://a/b".data 7100001)) := by
  have hcanon : ∀ v ∈ ["1.2.3.4".data], IpCanon v := by
    intro v hvmem
    rw [List.mem_singleton] at hvmem
    subst hvmem
    exact ⟨1, 2, 3, 4, by decide, by decide, by decide, by decide, by decide⟩
  exact C2_stable_identifiers ["1.2.3.4".data] (by decide) hcanon 0 "1.2.3.4".data
    (by decide) ["5.6.7.8".data, "1.2.3.4".data] (fun _ => ([], []))
    ["http://c/d".data] [renderUrlLine (fun _ => ([], [])) "http://a/b".data 7100001]
    0 (renderUrlLine (fun _ => ([], [])) "http://a/b".data 7100001) rfl

/-- `block_urls` reloads Suricata on every call. -/
lemma blockUrls_reloaded (hostUri : List Char → List Char × List Char)
    (raws : List (List Char)) (file : Option (List (List Char))) :
    (blockUrls hostUri raws file).reloaded = true := by
  cases file with
  | none =>
    rw [blockUrls_none_eq]
    split <;> rfl
  | some ls =>
    rw [blockUrls_some_eq]
    split <;> rfl

/-- `block_hashes` reloads Suricata on every call. -/
lemma blockHashes_reloaded (raws : List (List Char)) (st : HashState) :
    (blockHashes raws st).2 = true := rfl

/-- Claim C3 (counterexample): calling `block_urls` with an empty batch on an
absent rule file performs no write — and still invokes the Suricata reload,
which the claim says must not happen. -/
theorem C3_counterexample :
    (blockUrls (fun _ => ([], [])) [] none).written = [] ∧
    (blockUrls (fun _ => ([], [])) [] none).file = none ∧
    (blockUrls (fun _ => ([], [])) [] none).reloaded = true := by decide

/-- Claim C3 as amended: an empty batch, or a batch whose values are all
already present in the persisted state, performs no write and leaves the
file unchanged for both stores; however, the IP block still invokes the
reload whenever the persisted rule count is nonzero (it skips the reload
only when the file would be empty), and the URL block invokes the reload
unconditionally. -/
theorem C3_noop_skip_amended
    (vs : List (List Char)) (hnd : vs.Nodup) (hc : ∀ v ∈ vs, IpCanon v)
    (ipRaws : List (List Char))
    (hcont : ∀ raw ∈ ipRaws, ∀ w, normIp raw = some w → w ∈ vs)
    (hostUri : List Char → List Char × List Char)
    (urlRaws : List (List Char)) (ls : List (List Char))
    (hucont : ∀ u ∈ urlUniq urlRaws, u ∈ urlExisting ls) :
    ((blockIp ipRaws (some (ipFileOf vs))).1.written = [] ∧
      (blockIp ipRaws (some (ipFileOf vs))).1.file = some (ipFileOf vs) ∧
      ((blockIp ipRaws (some (ipFileOf vs))).2 = true ↔ vs ≠ [])) ∧
    ((blockUrls hostUri urlRaws (some ls)).written = [] ∧
      (blockUrls hostUri urlRaws (some ls)).file = some ls ∧
      (blockUrls hostUri urlRaws (some ls)).reloaded = true) := by
  have hsub : ∀ x ∈ dedupNormIps ipRaws, x ∈ vs := by
    intro x hx
    rcases mem_foldl_normAccum hx with h | ⟨raw, hraw, hnorm⟩
    · simp at h
    · exact hcont raw hraw x hnorm
  have hnil := newVals_eq_nil_of_subset hsub
  have hmerge : writeRulesFile ipRaws (some (ipFileOf vs)) =
      ⟨some (ipFileOf vs), [], none, vs.length⟩ := by
    rw [writeRulesFile_some_eq ipRaws vs hnd hc, hnil]
    rfl
  have hunil : (urlUniq urlRaws).filter
      (fun u => !((urlExisting ls).contains u)) = [] :=
    List.filter_eq_nil_iff.mpr (fun a ha => by simp [contains_iff, hucont a ha])
  refine ⟨⟨?_, ?_, ?_⟩, ?_, ?_, blockUrls_reloaded hostUri urlRaws (some ls)⟩
  · show (writeRulesFile ipRaws (some (ipFileOf vs))).written = []
    rw [hmerge]
  · show (writeRulesFile ipRaws (some (ipFileOf vs))).file = _
    rw [hmerge]
  · show (decide ((writeRulesFile ipRaws (some (ipFileOf vs))).count ≠ 0)) = true ↔ _
    rw [hmerge]
    simp [List.length_eq_zero]
  · rw [blockUrls_some_eq hostUri urlRaws ls, hunil]
    rfl
  · rw [blockUrls_some_eq hostUri urlRaws ls, hunil]
    rfl

/-- Witness for C3 as amended: a fully contained IP batch and an empty URL
batch cause no write, yet the IP reload fires (file nonempty) and the URL
reload fires unconditionally. -/
theorem C3_noop_skip_amended_witness :
    (blockIp ["1.2.3.4".data] (some (ipFileOf ["1.2.3.4".data]))).1.written = [] ∧
    (blockIp ["1.2.3.4".data] (some (ipFileOf ["1.2.3.4".data]))).2 = true ∧
    (blockUrls (fun _ => ([], [])) [] (some [])).written = [] ∧
    (blockUrls (fun _ => ([], [])) [] (some [])).reloaded = true := by
  have hcanon : ∀ v ∈ ["1.2.3.4".data], IpCanon v := by
    intro v hvmem
    rw [List.mem_singleton] at hvmem
    subst hvmem
    exact ⟨1, 2, 3, 4, by decide, by decide, by decide, by decide, by decide⟩
  have hcont : ∀ raw ∈ ["1.2.3.4".data], ∀ w, normIp raw = some w →
      w ∈ ["1.2.3.4".data] := by
    intro raw hraw w hw
    rw [List.mem_singleton] at hraw
    subst hraw
    rw [show normIp "1.2.3.4".data = some "1.2.3.4".data from by decide] at hw
    simp only [Option.some.injEq] at hw
    subst hw
    simp
  have h := C3_noop_skip_amended ["1.2.3.4".data] (by decide) hcanon
    ["1.2.3.4".data] hcont (fun _ => ([], [])) [] []
    (by
      intro u hu
      rw [show urlUniq ([] : List (List Char)) = [] from rfl] at hu
      exact absurd hu (List.not_mem_nil u))
  exact ⟨h.1.1, h.1.2.2.mpr (by decide), h.2.1, h.2.2.2⟩

/-- `renderIpLines` produces one line per value. -/
lemma renderIpLines_isEmpty (start : Nat) (l : List (List Char)) :
    (renderIpLines start l).isEmpty = l.isEmpty := by
  cases l <;> rfl

/-- Claim C4 (counterexample): a merge that introduces a new entry opens the
target path directly (create-write), with no temporary file and no rename —
not the temp-then-atomic-rename protocol the claim requires. -/
theorem C4_counterexample :
    (writeRulesFile ["1.2.3.4".data] none).written ≠ [] ∧
    (writeRulesFile ["1.2.3.4".data] none).wrote = some WriteMethod.createWrite ∧
    some WriteMethod.createWrite ≠ some WriteMethod.tempThenRename := by decide

/-- Claim C4 as amended: every merge that introduces new entries writes
directly to the target path — opening it in create-write mode when the file
is absent and append mode otherwise — and never uses a temporary file with
an atomic rename; merges that introduce nothing do not open the file for
writing at all.  Likewise the URL store never uses temp-and-rename. -/
theorem C4_write_method_amended
    (raws : List (List Char)) (file : Option (List (List Char)))
    (hostUri : List Char → List Char × List Char)
    (uraws : List (List Char)) (ufile : Option (List (List Char))) :
    ((writeRulesFile raws file).wrote =
      (if (writeRulesFile raws file).written.isEmpty then none
        else if file = none then some WriteMethod.createWrite
        else some WriteMethod.appendWrite) ∧
      (writeRulesFile raws file).wrote ≠ some WriteMethod.tempThenRename) ∧
    (blockUrls hostUri uraws ufile).wrote ≠ some WriteMethod.tempThenRename := by
  refine ⟨?_, ?_⟩
  · cases file with
    | none =>
      rw [writeRulesFile_none_eq raws]
      by_cases he : (dedupNormIps raws).isEmpty = true
      · rw [if_pos he]
        exact ⟨rfl, by simp⟩
      · rw [if_neg he]
        constructor
        · show some WriteMethod.createWrite =
            (if (renderIpLines 1 (dedupNormIps raws)).isEmpty = true then none
              else if (none : Option (List (List Char))) = none
                then some WriteMethod.createWrite else some WriteMethod.appendWrite)
          rw [renderIpLines_isEmpty]
          rw [if_neg he]
          rw [if_pos rfl]
        · simp
    | some ls =>
      simp only [writeRulesFile]
      by_cases he : ((ipExisting ls ++ (dedupNormIps raws).filter
          (fun ip => !((ipExisting ls).contains ip))).filter
          (fun ip => !((ipExisting ls).contains ip))).isEmpty = true
      · rw [if_pos he]
        exact ⟨rfl, by simp⟩
      · rw [if_neg he]
        constructor
        · show some WriteMethod.appendWrite =
            (if (renderIpLines ((ipExisting ls).length + 1) _).isEmpty = true then none
              else if (some ls : Option (List (List Char))) = none
                then some WriteMethod.createWrite else some WriteMethod.appendWrite)
          rw [renderIpLines_isEmpty]
          rw [if_neg he]
          rw [if_neg (by simp)]
        · simp
  · cases ufile with
    | none =>
      rw [blockUrls_none_eq]
      split
      · simp
      · simp
    | some ls =>
      rw [blockUrls_some_eq]
      split
      · simp
      · simp

/-- Claim C5 (counterexample): one cycle in which nothing is added to either
enabled store (both batches fully contained) still invokes the Suricata
reload twice — more than once, and with no kind changed. -/
theorem C5_counterexample :
    (jobDefense (fun _ => ([], [])) ⟨true, true, false⟩
      ⟨["1.2.3.4".data], ["http://a/b".data], []⟩
      ⟨some (ipFileOf ["1.2.3.4".data]),
        some (renderUrlLines (fun _ => ([], [])) 1 (urlUniq ["http://a/b".data])),
        ⟨[], none⟩⟩).reloads = 2 ∧
    (jobDefense (fun _ => ([], [])) ⟨true, true, false⟩
      ⟨["1.2.3.4".data], ["http://a/b".data], []⟩
      ⟨some (ipFileOf ["1.2.3.4".data]),
        some (renderUrlLines (fun _ => ([], [])) 1 (urlUniq ["http://a/b".data])),
        ⟨[], none⟩⟩).state.ipFile = some (ipFileOf ["1.2.3.4".data]) ∧
    (jobDefense (fun _ => ([], [])) ⟨true, true, false⟩
      ⟨["1.2.3.4".data], ["http://a/b".data], []⟩
      ⟨some (ipFileOf ["1.2.3.4".data]),
        some (renderUrlLines (fun _ => ([], [])) 1 (urlUniq ["http://a/b".data])),
        ⟨[], none⟩⟩).state.urlFile =
      some (renderUrlLines (fun _ => ([], [])) 1 (urlUniq ["http://a/b".data])) ∧
    ¬ (2 : Nat) ≤ 1 := by decide

/-- Claim C5 as amended: each enabled kind with a nonempty normalized batch
triggers its own reload — the IP block reloads iff the resulting rule count
is nonzero, while the URL and hash blocks reload unconditionally — so one
cycle performs up to three reload invocations, including cycles in which
nothing was added. -/
theorem C5_reload_per_kind_amended
    (hostUri : List Char → List Char × List Char) (st : Settings)
    (ioc : IocBatch) (ds : DefenseState) :
    (jobDefense hostUri st ioc ds).reloads =
      (if (st.enableSuricata && !(normalizeIoc ioc).ip.isEmpty) &&
          (blockIp (normalizeIoc ioc).ip ds.ipFile).2 then 1 else 0) +
      (if st.enableSuricataUrl && !(normalizeIoc ioc).url.isEmpty then 1 else 0) +
      (if st.enableSuricataHash && !(normalizeIoc ioc).hash.isEmpty then 1 else 0) ∧
    (jobDefense hostUri st ioc ds).reloads ≤ 3 := by
  constructor
  · show (if _ && (blockIp (normalizeIoc ioc).ip ds.ipFile).2 then 1 else 0) +
      (if _ && (blockUrls hostUri (normalizeIoc ioc).url ds.urlFile).reloaded
        then 1 else 0) +
      (if _ && (blockHashes (normalizeIoc ioc).hash ds.hashState).2
        then 1 else 0) = _
    rw [blockUrls_reloaded, blockHashes_reloaded, Bool.and_true, Bool.and_true]
  · show (if _ then 1 else 0) + (if _ then 1 else 0) + (if _ then 1 else 0) ≤ 3
    have h1 : ∀ c : Bool, (if c = true then 1 else 0) ≤ 1 := by
      intro c
      cases c <;> simp
    split <;> split <;> split <;> omega

/-- Claim C6 (counterexample): the rendered rule line does not round-trip to
the full entry.  The store's own line parse gives identical results for two
entries sharing a value but carrying different rule identifiers, so
`parse(render(entry))` cannot recover the entry's identifier. -/
theorem C6_counterexample :
    urlLineExtract (renderUrlLine (fun _ => ([], [])) "http://a/b".data 7100001) =
      urlLineExtract (renderUrlLine (fun _ => ([], [])) "http://a/b".data 7100002) ∧
    (7100001 : Nat) ≠ 7100002 := by decide

/-- Claim C6 as amended: parsing the rule line the store renders for an
entry recovers the entry's canonical value exactly (for both kinds); the
numeric identifier is not read back from the line — for the IP store it is
re-derived from the line's position in the file, which coincides with the
persisted `sid = BASE_SID + 1 + position` for store-written files. -/
theorem C6_roundtrip_amended
    (v : List Char) (hcanon : IpCanon v) (sid : Nat)
    (hostUri : List Char → List Char × List Char)
    (u : List Char) (usid : Nat) (hq : '"' ∉ u)
    (vs : List (List Char)) (hnd : vs.Nodup) (hc : ∀ w ∈ vs, IpCanon w)
    (i : Nat) (w : List Char) (hw : vs.get? i = some w) :
    ipLineExtract (renderIpLine v sid) = some v ∧
    urlLineExtract (renderUrlLine hostUri u usid) = some u ∧
    (w, BASE_SID + 1 + i) ∈ reconstructIp (ipFileOf vs) := by
  refine ⟨ipLineExtract_render sid hcanon, urlLineExtract_render hostUri usid hq, ?_⟩
  unfold reconstructIp
  rw [ipExisting_ipFileOf hc hnd]
  exact mem_zipSids_of_get? vs 1 i w hw

/-- Witness for C6 as amended at concrete entries. -/
theorem C6_roundtrip_amended_witness :
    ipLineExtract (renderIpLine "1.2.3.4".data 7000001) = some "1.2.3.4".data ∧
    urlLineExtract (renderUrlLine (fun _ => ([], [])) "http://a/b".data 7100001) =
      some "http://a/b".data ∧
    ("1.2.3.4".data, BASE_SID + 1 + 0) ∈ reconstructIp (ipFileOf ["1.2.3.4".data]) := by
  have hcanon : IpCanon "1.2.3.4".data :=
    ⟨1, 2, 3, 4, by decide, by decide, by decide, by decide, by decide⟩
  exact C6_roundtrip_amended "1.2.3.4".data hcanon 7000001 (fun _ => ([], []))
    "http://a/b".data 7100001 (by decide) ["1.2.3.4".data] (by decide)
    (by
      intro w hwm
      rw [List.mem_singleton] at hwm
      subst hwm
      exact hcanon)
    0 "1.2.3.4".data (by decide)

/-- Claim C7 (counterexample): with all three kinds enabled and nonempty,
`job` dispatches the defense integrations in the order IP, URL, HASH — not
the order IP, HASH, URL stated by the claim. -/
theorem C7_counterexample :
    (jobDefense (fun _ => ([], [])) ⟨true, true, true⟩
      ⟨["1.2.3.4".data], ["http://a/b".data],
        ["d41d8cd98f00b204e9800998ecf8427e".data]⟩
      ⟨none, none, ⟨[], none⟩⟩).order =
      [KindTag.ip, KindTag.url, KindTag.hash] ∧
    [KindTag.ip, KindTag.url, KindTag.hash] ≠
      [KindTag.ip, KindTag.hash, KindTag.url] := by
  constructor
  · rfl
  · decide

/-- Claim C7 as amended: within every cycle the orchestrator processes the
kinds present in the batch in the deterministic source order IP, URL, HASH —
each enabled nonempty kind appears exactly at its place in that order, and
the dispatch sequence is always a subsequence of `[ip, url, hash]`. -/
theorem C7_dispatch_order_amended
    (hostUri : List Char → List Char × List Char) (st : Settings)
    (ioc : IocBatch) (ds : DefenseState) :
    (jobDefense hostUri st ioc ds).order =
      (if st.enableSuricata && !(normalizeIoc ioc).ip.isEmpty
        then [KindTag.ip] else []) ++
      (if st.enableSuricataUrl && !(normalizeIoc ioc).url.isEmpty
        then [KindTag.url] else []) ++
      (if st.enableSuricataHash && !(normalizeIoc ioc).hash.isEmpty
        then [KindTag.hash] else []) ∧
    (jobDefense hostUri st ioc ds).order.Sublist
      [KindTag.ip, KindTag.url, KindTag.hash] := by
  constructor
  · rfl
  · show ((if _ then [KindTag.ip] else []) ++ (if _ then [KindTag.url] else []) ++
      (if _ then [KindTag.hash] else [])).Sublist
        ([KindTag.ip] ++ ([KindTag.url] ++ [KindTag.hash]))
    rw [List.append_assoc]
    refine List.Sublist.append ?_ (List.Sublist.append ?_ ?_) <;>
      (split
       · exact List.Sublist.refl _
       · exact List.nil_sublist _)

/-- Claim C8: if the engine configuration self-test fails, neither reload
variant attempts the `suricatasc` socket reload or the USR2 signal fallback
in that invocation — the action list is exactly the failed config test. -/
theorem C8_config_test_aborts (e : ReloadEnv)
    (hbin : e.binExists = true) (hfail : e.configTestOk = false) :
    reloadSuricataIp e = [ReloadAct.configTest] ∧
    reloadSuricataAux e = [ReloadAct.configTest] ∧
    ReloadAct.scReload ∉ reloadSuricataIp e ∧
    ReloadAct.signalUsr2 ∉ reloadSuricataIp e ∧
    ReloadAct.scReload ∉ reloadSuricataAux e ∧
    ReloadAct.signalUsr2 ∉ reloadSuricataAux e := by
  have h1 : reloadSuricataIp e = [ReloadAct.configTest] := by
    unfold reloadSuricataIp
    rw [if_neg (by simp [hbin]), if_pos (by simp [hfail])]
  have h2 : reloadSuricataAux e = [ReloadAct.configTest] := by
    unfold reloadSuricataAux
    rw [if_pos (by simp [hfail])]
  refine ⟨h1, h2, ?_, ?_, ?_, ?_⟩
  · rw [h1]; decide
  · rw [h1]; decide
  · rw [h2]; decide
  · rw [h2]; decide

/-- Witness for C8 at a concrete environment (binary present, self-test
failing, socket tool available, PID file present). -/
theorem C8_config_test_aborts_witness :
    reloadSuricataIp ⟨true, false, true, true, true⟩ = [ReloadAct.configTest] ∧
    reloadSuricataAux ⟨true, false, true, true, true⟩ = [ReloadAct.configTest] ∧
    ReloadAct.scReload ∉ reloadSuricataIp ⟨true, false, true, true, true⟩ ∧
    ReloadAct.signalUsr2 ∉ reloadSuricataIp ⟨true, false, true, true, true⟩ ∧
    ReloadAct.scReload ∉ reloadSuricataAux ⟨true, false, true, true, true⟩ ∧
    ReloadAct.signalUsr2 ∉ reloadSuricataAux ⟨true, false, true, true, true⟩ :=
  C8_config_test_aborts ⟨true, false, true, true, true⟩ rfl rfl

/-! ## Claim C9: the cleaning stage of `_normalize_ip` -/

/-- The cleaning the code actually performs before parsing: strip, then
`[.]`→`.` only. -/
def cleanIpCode (raw : List Char) : List Char := replaceBrDot (pyStrip raw)

/-- Modelled from the spec: the cleaning step the claim describes — strip,
then both `[.]`→`.` and `[:]`→`:` — for comparison with `cleanIpCode`. -/
def cleanIpSpec (raw : List Char) : List Char :=
  replaceBrColon (replaceBrDot (pyStrip raw))

/-- Claim C9 (counterexample): on `2001[:]db8::1` the code's cleaning leaves
the `[:]` obfuscation in place (the claimed cleaning would strip it), and
normalization rejects the input. -/
theorem C9_counterexample :
    cleanIpCode "2001[:]db8::1".data ≠ cleanIpSpec "2001[:]db8::1".data ∧
    cleanIpCode "2001[:]db8::1".data = "2001[:]db8::1".data ∧
    cleanIpSpec "2001[:]db8::1".data = "2001:db8::1".data ∧
    normIp "2001[:]db8::1".data = none := by decide

/-- Claim C9 as amended: IP normalization strips only the `[.]` obfuscation
pattern (never `[:]`) from the stripped raw string, then parses the result
as an address, rejecting (returning `None` for) every input whose cleaned
form does not parse; accepted values are canonical and fixed under
re-normalization. -/
theorem C9_normalize_amended (raw : List Char) :
    (normIp raw = none ↔
      raw.isEmpty = true ∨ parseIPv4 (cleanIpCode raw) = none) ∧
    (∀ v, normIp raw = some v → IpCanon v ∧ normIp v = some v) ∧
    normIp "1[.]2[.]3[.]4".data = some "1.2.3.4".data ∧
    normIp "999.1.1.1".data = none := by
  refine ⟨?_, ?_, by decide, by decide⟩
  · unfold normIp cleanIpCode
    by_cases he : raw.isEmpty = true
    · simp [he]
    · rw [if_neg he]
      simp only [he, false_or]
      cases hp : parseIPv4 (replaceBrDot (pyStrip raw)) with
      | none => simp
      | some q =>
        obtain ⟨a, b, c, d⟩ := q
        simp
  · intro v hv
    have hcanon := normIp_some_canon hv
    exact ⟨hcanon, normIp_canon hcanon⟩

/-- Witness for C9 as amended: the de-obfuscated concrete input. -/
theorem C9_normalize_amended_witness :
    normIp "1[.]2[.]3[.]4".data = some "1.2.3.4".data ∧
    IpCanon "1.2.3.4".data ∧ normIp "1.2.3.4".data = some "1.2.3.4".data := by
  have h := C9_normalize_amended "1[.]2[.]3[.]4".data
  have h2 := h.2.1 "1.2.3.4".data h.2.2.1
  exact ⟨h.2.2.1, h2.1, h2.2⟩

/-- Claim C10: for every input text, `extract` returns the dictionary with
exactly the keys `ip`, `hash`, `url` in that insertion order (present even
with no matches), and each value is the duplicate-free ascending-sorted
list of that kind's matches. -/
theorem C10_extract_shape
    (findIp findHash findUrl : List Char → List (List Char)) (text : List Char) :
    ((extract findIp findHash findUrl text).map Prod.fst =
      ["ip".data, "hash".data, "url".data]) ∧
    ((extract findIp findHash findUrl text).map Prod.snd =
      [sortedUnique (findIp text), sortedUnique (findHash text),
        sortedUnique (findUrl text)]) ∧
    (∀ p ∈ extract findIp findHash findUrl text, StrictAsc p.2 ∧ p.2.Nodup) ∧
    (∀ m, (m ∈ sortedUnique (findIp text) ↔ m ∈ findIp text) ∧
      (m ∈ sortedUnique (findHash text) ↔ m ∈ findHash text) ∧
      (m ∈ sortedUnique (findUrl text) ↔ m ∈ findUrl text)) := by
  refine ⟨rfl, rfl, ?_, ?_⟩
  · intro p hp
    have hsort : ∀ l : List (List Char),
        StrictAsc (sortedUnique l) ∧ (sortedUnique l).Nodup :=
      fun l => ⟨sortedSet_strictAsc l, sortedSet_nodup l⟩
    rcases List.mem_cons.mp hp with rfl | hp
    · exact hsort _
    rcases List.mem_cons.mp hp with rfl | hp
    · exact hsort _
    rcases List.mem_cons.mp hp with rfl | hp
    · exact hsort _
    · exact absurd hp (List.not_mem_nil p)
  · intro m
    exact ⟨mem_sortedSet, mem_sortedSet, mem_sortedSet⟩

/-- Witness for C10 at a concrete (duplicated, unsorted) match list. -/
theorem C10_extract_shape_witness :
    ((extract (fun _ => ["9.9.9.9".data, "1.2.3.4".data, "9.9.9.9".data])
      (fun _ => []) (fun _ => ["http://a".data]) []).map Prod.fst =
      ["ip".data, "hash".data, "url".data]) ∧
    StrictAsc (sortedUnique ["9.9.9.9".data, "1.2.3.4".data, "9.9.9.9".data]) ∧
    (sortedUnique ["9.9.9.9".data, "1.2.3.4".data, "9.9.9.9".data]).Nodup ∧
    ("1.2.3.4".data ∈ sortedUnique ["9.9.9.9".data, "1.2.3.4".data, "9.9.9.9".data] ↔
      "1.2.3.4".data ∈ ["9.9.9.9".data, "1.2.3.4".data, "9.9.9.9".data]) := by
  have h := C10_extract_shape
    (fun _ => ["9.9.9.9".data, "1.2.3.4".data, "9.9.9.9".data])
    (fun _ => []) (fun _ => ["http://a".data]) []
  have hp := h.2.2.1 ("ip".data,
    sortedUnique ["9.9.9.9".data, "1.2.3.4".data, "9.9.9.9".data])
    (List.mem_cons_self _ _)
  exact ⟨h.1, hp.1, hp.2, (h.2.2.2 "1.2.3.4".data).1⟩

end SecBot
